import Mathlib

/-!
# Graphrats loader and zone partitioning (graph.c, simutil.c)

A shallow embedding of `read_graph`, `find_zone`, `fixup_list`, `setup_zone`
(graph.c) and `new_rats`, `seed_rats`, `read_rats` (simutil.c).

Conventions of the embedding.

* C arrays are lists; an array obtained from `calloc` starts as a list of zeros
  and is written with `List.set`.
* Counts (`nnode`, `nedge`, `nzone`, `nrat`) are natural numbers; node ids, zone
  ids and array contents are integers, because the code uses `-1` as a marker.
  Machine-integer overflow matters in `find_zone` only, which adds values supplied
  by the file: there the sums wrap around at 32 bits (`wrap32`). Every other value
  computed here is bounded by the sizes of the arrays that hold it.
* A text file is given by its parsed records, one entry per non-comment line, in
  the sections the loader reads them in. The number of edge records is `nedge`
  and the number of zone records is `fnzone`.
* Memory allocation is taken to succeed.
-/

namespace Crun

/-! ## Data model (crun.h, graph.c) -/

/-- Representation of a zone (graph.c, `zone_t`): upper left corner, width, height. -/
structure zone_t where
  x : Int
  y : Int
  w : Int
  h : Int
deriving DecidableEq

/-- Representation of the graph (crun.h, `graph_t`). The zone-specific fields are
filled by `setup_zone`; before that they hold the placeholders given by `new_graph`. -/
structure graph_t where
  nnode : Nat
  nedge : Nat
  nzone : Nat
  neighbor : List Int
  neighbor_start : List Nat
  zone_id : List Int
  this_zone : Int
  local_node_count : Nat
  local_node_list : List Int
  export_node_count : List Nat
  export_node_list : List (List Int)
  import_node_count : List Nat
  import_node_list : List (List Int)
deriving DecidableEq

/-- What a call of `read_graph` ends in: a graph, the NULL pointer, or an integer
division by zero (undefined behaviour, the process does not return). -/
inductive load_t where
  | graph (g : graph_t)
  | null
  | undefined
deriving DecidableEq

/-- One zone record line. `parsed` tells whether `sscanf` matched all of
`z <x> <y> <w> <h>`; `x y w h` are the contents of the four locals after the call,
which the loader stores in either case. -/
structure zone_line where
  parsed : Bool
  x : Int
  y : Int
  w : Int
  h : Int
deriving DecidableEq

/-- Rectangle stored in `zone_list` for a zone record line. -/
def zone_of_line (l : zone_line) : zone_t :=
  { x := l.x, y := l.y, w := l.w, h := l.h }

/-- A graph file as the loader sees it. `header` is `none` when the first line does
not give two integers, and the node count otherwise; `nodes` tells for every node
line whether it parses as `n <ilf>`; an edge line is `none` when it does not parse
as `e <head> <tail>`. -/
structure graph_file where
  header : Option Nat
  nodes : List Bool
  edges : List (Option (Int × Int))
  zones : List zone_line
deriving DecidableEq

/-- Allocation of the graph (graph.c, `new_graph`): zeroed arrays of lengths
`nnode + nedge`, `nnode + 1` and, when `nzone > 0`, `nnode`. -/
def new_graph (nnode nedge nzone : Nat) : graph_t :=
  { nnode := nnode
    nedge := nedge
    nzone := nzone
    neighbor := List.replicate (nnode + nedge) 0
    neighbor_start := List.replicate (nnode + 1) 0
    zone_id := if 0 < nzone then List.replicate nnode 0 else []
    this_zone := 0
    local_node_count := 0
    local_node_list := []
    export_node_count := []
    export_node_list := []
    import_node_count := []
    import_node_list := [] }

/-! ## find_zone -/

/-- Value that 32-bit `int` arithmetic leaves for the exact result `a`: the
representative of `a` modulo `2^32` in `[-2^31, 2^31)`. An exact result in that range
is kept; one outside it is an overflow, which wraps around. -/
def wrap32 (a : Int) : Int :=
  (a + 2147483648) % 4294967296 - 2147483648

/-- Loop of `find_zone` from index `zid` on: the first rectangle whose test succeeds.
`zxmax` and `zymax` are computed in `int`: each addition and subtraction wraps. -/
def find_zone_loop (x y : Int) : List zone_t → Int → Int
  | [], _ => -1
  | z :: zs, zid =>
    let zxmin := z.x
    let zymin := z.y
    let zxmax := wrap32 (wrap32 (zxmin + z.w) - 1)
    let zymax := wrap32 (wrap32 (zymin + z.h) - 1)
    if zxmin ≤ x ∧ x ≤ zxmax ∧ zymin ≤ y ∧ y ≤ zymax then zid
    else find_zone_loop x y zs (zid + 1)

/-- Index of the first zone whose test accepts `(x, y)`, or `-1` (graph.c,
`find_zone`); `zone_count` is the length of the list. -/
def find_zone (zones : List zone_t) (x y : Int) : Int :=
  find_zone_loop x y zones 0

/-! ## read_graph -/

/-- Loop variables of the edge section of `read_graph`: the last node started, the
next free slot of `neighbor`, and the two arrays being filled. -/
structure build_t where
  nid : Int
  eid : Nat
  neighbor : List Int
  neighbor_start : List Nat
deriving DecidableEq

/-- Body of `while (nid < hid)`, run `k` times: start the next node and give it its
self edge. The caller passes `k = hid - nid`, the number of iterations of the loop. -/
def start_nodes : Nat → build_t → build_t
  | 0, b => b
  | k + 1, b =>
    start_nodes k
      { nid := b.nid + 1
        eid := b.eid + 1
        neighbor := b.neighbor.set b.eid (b.nid + 1)
        neighbor_start := b.neighbor_start.set (b.nid + 1).toNat b.eid }

/-- One iteration of the edge loop on a parsed record `e hid tid`: the three checks,
then the nodes up to `hid` are started and the tail is stored. `none` is the early
`return false`. -/
def read_edge (nnode : Nat) (b : build_t) (hid tid : Int) : Option build_t :=
  if hid < 0 ∨ hid ≥ (nnode : Int) then none
  else if tid < 0 ∨ tid ≥ (nnode : Int) then none
  else if hid < b.nid then none
  else
    let b1 := start_nodes (hid - b.nid).toNat b
    some { b1 with neighbor := b1.neighbor.set b1.eid tid, eid := b1.eid + 1 }

/-- The edge loop of `read_graph` over the edge lines of the file. -/
def read_edges (nnode : Nat) : List (Option (Int × Int)) → build_t → Option build_t
  | [], b => some b
  | none :: _, _ => none
  | some (hid, tid) :: rest, b =>
    match read_edge nnode b hid tid with
    | none => none
    | some b1 => read_edges nnode rest b1

/-- Body of `while (nid < nnode-1)`, run `k` times: the self edge of a node that is
past the last head. The body does not write `neighbor_start`. The caller passes
`k = nnode - 1 - nid`. -/
def fill_isolated : Nat → build_t → build_t
  | 0, b => b
  | k + 1, b =>
    fill_isolated k
      { b with
        nid := b.nid + 1
        eid := b.eid + 1
        neighbor := b.neighbor.set b.eid (b.nid + 1) }

/-- Floor of the square root by downward search; the value of `(int) sqrt(n)`. -/
def isqrt_from (n : Nat) : Nat → Nat
  | 0 => 0
  | k + 1 => if (k + 1) * (k + 1) ≤ n then k + 1 else isqrt_from n k

/-- Value of `(int) sqrt(n)` for a non-negative `int` `n`: the double square root is
correctly rounded, so its truncation is the integer square root (`int_sqrt_binary64`). -/
def int_sqrt (n : Nat) : Nat := isqrt_from n n

/-- Zone id given to node `nid` by the zone section of `read_graph`: the node's
cell on a grid of `ncol` columns is looked up with `find_zone` and the index is
divided (C division, truncating) by `fzone_per_zone`. -/
def node_zone (zone_list : List zone_t) (ncol fzone_per_zone nid : Nat) : Int :=
  let x : Int := ((nid % ncol : Nat) : Int)
  let y : Int := ((nid / ncol : Nat) : Int)
  let zid := find_zone zone_list x y
  Int.tdiv zid (fzone_per_zone : Int)

/-- Read in a graph file and build the graph data structure (graph.c, `read_graph`).
Node lines and zone lines that do not parse only produce a message. `fnzone % nzone`
and `fnzone / nzone` divide by `nzone`, and `zid / fzone_per_zone` divides by
`fzone_per_zone` for every node. -/
def read_graph (f : graph_file) (nzone : Nat) : load_t :=
  match f.header with
  | none => .null
  | some nnode =>
    let nedge := f.edges.length
    let fnzone := f.zones.length
    if nzone = 0 then .undefined
    else
      let fzone_per_zone := fnzone / nzone
      let g := new_graph nnode nedge nzone
      match read_edges nnode f.edges
          { nid := -1, eid := 0, neighbor := g.neighbor, neighbor_start := g.neighbor_start } with
      | none => .null
      | some b =>
        let b1 := fill_isolated ((nnode : Int) - 1 - b.nid).toNat b
        let g1 := { g with neighbor := b1.neighbor
                           neighbor_start := b1.neighbor_start.set nnode b1.eid }
        if nzone = 0 then .graph g1
        else
          let zone_list := f.zones.map zone_of_line
          let ncol := int_sqrt nnode
          if 0 < nnode ∧ fzone_per_zone = 0 then .undefined
          else
            .graph { g1 with
              zone_id := (List.range nnode).map (node_zone zone_list ncol fzone_per_zone) }

/-! ## fixup_list -/

/-- Function suitable for sorting arrays of ints (simutil.c, `comp_int`). -/
def comp_int (a b : Int) : Int :=
  -(if a < b then 1 else 0) + (if a > b then 1 else 0)

/-- Order that `comp_int` induces: `a` may stand before `b`. -/
def comp_le (a b : Int) : Prop := comp_int a b ≤ 0

instance comp_le_decidable : DecidableRel comp_le :=
  fun a b => inferInstanceAs (Decidable (comp_int a b ≤ 0))

/-- Result of `qsort(list, count, sizeof(int), comp_int)`: the entries rearranged in
the order of `comp_int`. That order is total on `int`, so every sorting procedure
yields this same array. -/
def qsort (list : List Int) : List Int :=
  list.insertionSort comp_le

/-- Compaction loop of `fixup_list` over the sorted entries still to be read: `last`
is the previous value, `out` the entries kept so far (`list[0 .. new_count)`), and
`new_count` their number. The write index never passes the read index, so the
entries still to be read are those of the sorted array. -/
def fixup_loop : List Int → Int → List Int → Nat → List Int × Nat
  | [], _, out, new_count => (out, new_count)
  | val :: rest, last, out, new_count =>
    if val ≠ last then fixup_loop rest val (out ++ [val]) (new_count + 1)
    else fixup_loop rest val out new_count

/-- Sort a list of integers and eliminate duplicates (graph.c, `fixup_list`): returns
the array resized to `new_count` entries (empty for NULL) and `new_count`. -/
def fixup_list (list : List Int) (first_count : Nat) : List Int × Nat :=
  fixup_loop (qsort (list.take first_count)) (-1) [] 0

/-! ## setup_zone -/

/-- Entry `i` of a C array, `none` when the index is outside the array. -/
def nth? {α : Type} (l : List α) (i : Int) : Option α :=
  if 0 ≤ i then l[i.toNat]? else none

/-- The three families of lists `setup_zone` fills while it scans the nodes. A buffer
is represented by its written prefix: the length of a list is the value of its count
variable (`lcount`, `export_node_count[z]`, `import_node_count[z]`). -/
structure scan_t where
  local_node_list : List Int
  export_node_list : List (List Int)
  import_node_list : List (List Int)
deriving DecidableEq

/-- Body of the inner loop of `setup_zone` for slot `eid` of the slice of node `nid`.
`none` is an access outside an array: a read past `neighbor` or `zone_id`, a zone id
that is no index of the list tables, or a write past the `maxperimeter` entries of a
list. -/
def scan_edge (g : graph_t) (this_zone : Int) (maxperimeter nid : Nat) (s : scan_t)
    (eid : Nat) : Option scan_t :=
  match g.neighbor[eid]? with
  | none => none
  | some nbrnid =>
    match nth? g.zone_id nbrnid with
    | none => none
    | some nbrzid =>
      if nbrzid ≠ this_zone then
        match nth? s.export_node_list nbrzid, nth? s.import_node_list nbrzid with
        | some ex, some im =>
          if ex.length < maxperimeter ∧ im.length < maxperimeter then
            some { s with
              export_node_list := s.export_node_list.set nbrzid.toNat (ex ++ [(nid : Int)])
              import_node_list := s.import_node_list.set nbrzid.toNat (im ++ [nbrnid]) }
          else none
        | _, _ => none
      else some s

/-- Inner loop of `setup_zone` over the slots of a neighbor slice. -/
def scan_edges (g : graph_t) (this_zone : Int) (maxperimeter nid : Nat) :
    List Nat → scan_t → Option scan_t
  | [], s => some s
  | eid :: rest, s =>
    match scan_edge g this_zone maxperimeter nid s eid with
    | none => none
    | some s1 => scan_edges g this_zone maxperimeter nid rest s1

/-- Body of the outer loop of `setup_zone` for node `nid`: a local node is appended
to `local_node_list` (`none` past its `maxzone` entries) and its slice
`[neighbor_start[nid], neighbor_start[nid+1])` is scanned. -/
def scan_node (g : graph_t) (this_zone : Int) (maxzone maxperimeter : Nat) (s : scan_t)
    (nid : Nat) : Option scan_t :=
  match g.zone_id[nid]? with
  | none => none
  | some zid =>
    if zid = this_zone then
      if s.local_node_list.length < maxzone then
        match g.neighbor_start[nid]?, g.neighbor_start[nid + 1]? with
        | some lo, some hi =>
          scan_edges g this_zone maxperimeter nid (List.range' lo (hi - lo))
            { s with local_node_list := s.local_node_list ++ [(nid : Int)] }
        | _, _ => none
      else none
    else some s

/-- Outer loop of `setup_zone` over the nodes. -/
def scan_nodes (g : graph_t) (this_zone : Int) (maxzone maxperimeter : Nat) :
    List Nat → scan_t → Option scan_t
  | [], s => some s
  | nid :: rest, s =>
    match scan_node g this_zone maxzone maxperimeter s nid with
    | none => none
    | some s1 => scan_nodes g this_zone maxzone maxperimeter rest s1

/-- Set up the zone-specific data structures (graph.c, `setup_zone`). `none` is
undefined behaviour of the C function: the division `nnode/nzone` by zero, or an
access outside an array as described at `scan_edge` and `scan_node`. The lists of
zone `this_zone` are NULL pointers, the empty list. -/
def setup_zone (g : graph_t) (this_zone : Int) : Option graph_t :=
  let nzone := g.nzone
  let nnode := g.nnode
  if nzone = 0 then none
  else
    let maxzone := nnode / nzone
    let maxperimeter := 4 * int_sqrt nnode
    match scan_nodes g this_zone maxzone maxperimeter (List.range nnode)
        { local_node_list := []
          export_node_list := List.replicate nzone []
          import_node_list := List.replicate nzone [] } with
    | none => none
    | some s =>
      let ex := s.export_node_list.map (fun l => fixup_list l l.length)
      let im := s.import_node_list.map (fun l => fixup_list l l.length)
      some { g with
        this_zone := this_zone
        local_node_count := s.local_node_list.length
        local_node_list := s.local_node_list
        export_node_count := ex.map Prod.snd
        export_node_list := ex.map Prod.fst
        import_node_count := im.map Prod.snd
        import_node_list := im.map Prod.fst }

/-! ## Simulation state (crun.h, simutil.c) -/

/-- Representation of the simulation state (crun.h, `state_t`), without its
floating-point fields (`load_factor`, the weights). Seeds are unsigned words. -/
structure state_t where
  g : graph_t
  nrat : Nat
  global_seed : Nat
  batch_size : Nat
  rat_position : List Int
  rat_seed : List Nat
  rat_count : List Int
deriving DecidableEq

/-- A rat file as the loader sees it: `header` is `none` when the first line does not
give two integers and the node count otherwise (the rat count is the number of
position lines); a position line is `none` when it does not parse as an integer. -/
structure rat_file where
  header : Option Nat
  positions : List (Option Int)
deriving DecidableEq

/-- Allocate the simulation state (simutil.c, `new_rats`). `rpct` is
`(int) (BATCH_FRACTION * nrat)` with `BATCH_FRACTION = 0.02`, which is `nrat / 50`
(the double nearest to 0.02 lies above it by less than `2^-60`; `rpct_binary64_eq`), and
`sroot` is `(int) sqrt(nrat)`. The arrays are zeroed. -/
def new_rats (g : graph_t) (nrat : Nat) (global_seed : Nat) : state_t :=
  let nnode := g.nnode
  let rpct := nrat / 50
  let sroot := int_sqrt nrat
  { g := g
    nrat := nrat
    global_seed := global_seed
    batch_size := if rpct > sroot then rpct else sroot
    rat_position := List.replicate nrat 0
    rat_seed := List.replicate nrat 0
    rat_count := List.replicate nnode 0 }

/-- Loop of `seed_rats` over the rats `r`: the seed cell of rat `r` is reseeded from
the two words `global_seed`, `r`. `reseed` (rutil.c) is a parameter: it maps the
content of the cell and the list of seed words to the new content of the cell. -/
def seed_loop (reseed : Nat → List Nat → Nat) (global_seed : Nat) :
    List Nat → List Nat → List Nat
  | [], rat_seed => rat_seed
  | r :: rest, rat_seed =>
    seed_loop reseed global_seed rest
      (rat_seed.set r (reseed (rat_seed.getD r 0) [global_seed, r]))

/-- Set seed values for the rats (simutil.c, `seed_rats`). -/
def seed_rats (reseed : Nat → List Nat → Nat) (s : state_t) : state_t :=
  { s with rat_seed := seed_loop reseed s.global_seed (List.range s.nrat) s.rat_seed }

/-- Position loop of `read_rats` from rat `r` on: `none` is the early
`return false` for a line that does not parse or a node number out of range. -/
def read_positions (nnode : Nat) : List (Option Int) → Nat → List Int → Option (List Int)
  | [], _, rat_position => some rat_position
  | none :: _, _, _ => none
  | some nid :: rest, r, rat_position =>
    if nid < 0 ∨ nid ≥ (nnode : Int) then none
    else read_positions nnode rest (r + 1) (rat_position.set r nid)

/-- Read in a rat file (simutil.c, `read_rats`); `none` is the NULL pointer. -/
def read_rats (reseed : Nat → List Nat → Nat) (g : graph_t) (f : rat_file)
    (global_seed : Nat) : Option state_t :=
  match f.header with
  | none => none
  | some nnode =>
    if nnode ≠ g.nnode then none
    else
      let s := new_rats g f.positions.length global_seed
      match read_positions nnode f.positions 0 s.rat_position with
      | none => none
      | some rat_position => some (seed_rats reseed { s with rat_position := rat_position })

/-! ## Notions used by the statements and the proofs -/

/-- Adjacency array the data model describes for `nnode` nodes and an edge list: for
every node in order, the node itself (its self edge) followed by the tails of the
edges whose head is that node, in the order supplied. -/
def adjacency (nnode : Nat) (es : List (Int × Int)) : List Int :=
  (List.range nnode).flatMap
    (fun (i : Nat) => (i : Int) :: (es.filter (fun e => e.1 = (i : Int))).map Prod.snd)

/-- Self edges of the nodes `c, c+1, ..., c+k-1`. -/
def self_edges (c k : Nat) : List Int := (List.range' c k).map (fun (i : Nat) => (i : Int))

/-- State of the edge loop after the edges `ps`, when `c` nodes have been started and
`r` edge records remain to be read. -/
structure edge_inv (nnode : Nat) (ps : List (Int × Int)) (r : Nat) (b : build_t) (c : Nat) :
    Prop where
  nid : b.nid = (c : Int) - 1
  le : c ≤ nnode
  neighbor : b.neighbor = adjacency c ps ++ List.replicate ((nnode - c) + r) 0
  len : (adjacency c ps).length = b.eid
  eid : b.eid = c + ps.length
  heads : ∀ e ∈ ps, e.1 < (c : Int)

/-- Loop variables at the start of the edge section of `read_graph`. -/
def build_init (nnode nedge : Nat) : build_t :=
  { nid := -1
    eid := 0
    neighbor := List.replicate (nnode + nedge) 0
    neighbor_start := List.replicate (nnode + 1) 0 }

/-- Entries the compaction loop of `fixup_list` keeps from the entries `xs`, when
the previous value is `last`. -/
def kept : Int → List Int → List Int
  | _, [] => []
  | last, v :: vs => if v ≠ last then v :: kept v vs else kept v vs

instance comp_le_total : IsTotal Int comp_le :=
  ⟨fun a b => by unfold comp_le comp_int; split_ifs <;> omega⟩

instance comp_le_trans : IsTrans Int comp_le :=
  ⟨fun a b c => by unfold comp_le comp_int; split_ifs <;> omega⟩

/-- Neighbor slice of node `n`: the entries `neighbor[start[n] .. start[n+1])`. -/
def neighbor_slice (g : graph_t) (n : Nat) : List Int :=
  match g.neighbor_start[n]?, g.neighbor_start[n + 1]? with
  | some lo, some hi => (g.neighbor.drop lo).take (hi - lo)
  | _, _ => []

/-- Slots of the neighbor slice of node `n`. -/
def slice_eids (g : graph_t) (n : Nat) : List Nat :=
  match g.neighbor_start[n]?, g.neighbor_start[n + 1]? with
  | some lo, some hi => List.range' lo (hi - lo)
  | _, _ => []

/-- Zone id of the node stored in slot `eid` of `neighbor`. -/
def slot_zone (g : graph_t) (eid : Nat) : Option Int :=
  match g.neighbor[eid]? with
  | none => none
  | some nbrnid => nth? g.zone_id nbrnid

/-- What slot `eid` of the slice of `nid` adds to the export list of zone `z`. -/
def exp_inc (g : graph_t) (this_zone : Int) (z nid eid : Nat) : List Int :=
  if slot_zone g eid = some (z : Int) ∧ (z : Int) ≠ this_zone then [(nid : Int)] else []

/-- What slot `eid` adds to the import list of zone `z`. -/
def imp_inc (g : graph_t) (this_zone : Int) (z eid : Nat) : List Int :=
  if slot_zone g eid = some (z : Int) ∧ (z : Int) ≠ this_zone then (g.neighbor[eid]?).toList
  else []

/-- What node `nid` adds to the export list of zone `z`. -/
def node_exp (g : graph_t) (this_zone : Int) (z nid : Nat) : List Int :=
  if g.zone_id[nid]? = some this_zone then (slice_eids g nid).flatMap (exp_inc g this_zone z nid)
  else []

/-- What node `nid` adds to the import list of zone `z`. -/
def node_imp (g : graph_t) (this_zone : Int) (z nid : Nat) : List Int :=
  if g.zone_id[nid]? = some this_zone then (slice_eids g nid).flatMap (imp_inc g this_zone z)
  else []

/-- Entries appended to the export list of zone `z` over the whole scan. -/
def raw_export (g : graph_t) (this_zone : Int) (z : Nat) : List Int :=
  (List.range g.nnode).flatMap (node_exp g this_zone z)

/-- Entries appended to the import list of zone `z` over the whole scan. -/
def raw_import (g : graph_t) (this_zone : Int) (z : Nat) : List Int :=
  (List.range g.nnode).flatMap (node_imp g this_zone z)

/-- Node `nid` is local to zone `this_zone` and some entry of its neighbor slice
belongs to zone `z`. -/
def exports_to (g : graph_t) (this_zone : Int) (z nid : Nat) : Prop :=
  g.zone_id[nid]? = some this_zone ∧
    ∃ m ∈ neighbor_slice g nid, nth? g.zone_id m = some (z : Int)

instance exports_to_decidable (g : graph_t) (this_zone : Int) (z nid : Nat) :
    Decidable (exports_to g this_zone z nid) := by
  unfold exports_to; infer_instance

/-- Node `m` belongs to zone `z` and is an entry of the neighbor slice of some node
local to zone `this_zone`. -/
def imported_from (g : graph_t) (this_zone : Int) (z m : Nat) : Prop :=
  g.zone_id[m]? = some (z : Int) ∧
    ∃ nid, nid < g.nnode ∧ g.zone_id[nid]? = some this_zone ∧ (m : Int) ∈ neighbor_slice g nid

instance imported_from_decidable (g : graph_t) (this_zone : Int) (z m : Nat) :
    Decidable (imported_from g this_zone z m) := by
  unfold imported_from; infer_instance

/-- The edge list `es` has a record the loader must refuse: an edge whose head is
outside `[0, nnode)`, or whose tail is outside `[0, nnode)`, or whose head is smaller
than the head of an earlier edge. -/
def bad_edge (nnode : Nat) (es : List (Int × Int)) : Prop :=
  ∃ (i : Nat) (hd tl : Int), es[i]? = some (hd, tl) ∧
    ((hd < 0 ∨ (nnode : Int) ≤ hd) ∨ (tl < 0 ∨ (nnode : Int) ≤ tl) ∨
      ∃ (j : Nat) (hd' tl' : Int), j < i ∧ es[j]? = some (hd', tl') ∧ hd < hd')

/-- Rectangle `z` contains the grid cell `(x, y)`. -/
def in_zone (z : zone_t) (x y : Int) : Prop :=
  z.x ≤ x ∧ x ≤ z.x + z.w - 1 ∧ z.y ≤ y ∧ y ≤ z.y + z.h - 1

instance in_zone_decidable (z : zone_t) (x y : Int) : Decidable (in_zone z x y) := by
  unfold in_zone; infer_instance

/-- The test `find_zone` applies to rectangle `z` and the cell `(x, y)`, with the upper
bounds as 32-bit arithmetic computes them. -/
def zone_test (z : zone_t) (x y : Int) : Prop :=
  z.x ≤ x ∧ x ≤ wrap32 (wrap32 (z.x + z.w) - 1) ∧
    z.y ≤ y ∧ y ≤ wrap32 (wrap32 (z.y + z.h) - 1)

instance zone_test_decidable (z : zone_t) (x y : Int) : Decidable (zone_test z x y) := by
  unfold zone_test; infer_instance

/-- The last column `x + w - 1` and the last row `y + h - 1` of rectangle `z` are
values of type `int`. -/
def fits_int (z : zone_t) : Prop :=
  (-2147483648 ≤ z.x + z.w - 1 ∧ z.x + z.w - 1 ≤ 2147483647) ∧
    (-2147483648 ≤ z.y + z.h - 1 ∧ z.y + z.h - 1 ≤ 2147483647)

instance fits_int_decidable (z : zone_t) : Decidable (fits_int z) := by
  unfold fits_int; infer_instance

/-- The path of `path3_file` with a second zone rectangle that begins in row 2 and has
the height `INT_MAX`: rows 0 to 1, and every row from 2 on. -/
def tall_file : graph_file :=
  { header := some 3
    nodes := [true, true, true]
    edges := [some (0, 1), some (1, 0), some (1, 2), some (2, 1)]
    zones := [⟨true, 0, 0, 1, 2⟩, ⟨true, 0, 2, 1, 2147483647⟩] }

/-- What `read_graph tall_file 2` returns. -/
def tall : graph_t :=
  { new_graph 3 4 2 with
    neighbor := [0, 1, 1, 0, 2, 2, 1]
    neighbor_start := [0, 2, 5, 7]
    zone_id := [0, 0, -1] }

/-- The sample of the specification: 4 nodes, edges (0,1), (1,2), (2,3), and one zone
rectangle covering the 2 x 2 grid. -/
def line4_file : graph_file :=
  { header := some 4
    nodes := [true, true, true, true]
    edges := [some (0, 1), some (1, 2), some (2, 3)]
    zones := [⟨true, 0, 0, 2, 2⟩] }

/-- What `read_graph line4_file 1` returns. -/
def line4 : graph_t :=
  { new_graph 4 3 1 with
    neighbor := [0, 1, 1, 2, 2, 3, 3]
    neighbor_start := [0, 2, 4, 0, 7]
    zone_id := [0, 0, 0, 0] }

/-- A 2 x 2 grid with its four undirected edges, every edge given in both directions,
and one zone rectangle per row. -/
def ring4_file : graph_file :=
  { header := some 4
    nodes := [true, true, true, true]
    edges := [some (0, 1), some (0, 2), some (1, 0), some (1, 3),
              some (2, 0), some (2, 3), some (3, 1), some (3, 2)]
    zones := [⟨true, 0, 0, 2, 1⟩, ⟨true, 0, 1, 2, 1⟩] }

/-- What `read_graph ring4_file 2` returns. -/
def ring4 : graph_t :=
  { new_graph 4 8 2 with
    neighbor := [0, 1, 2, 1, 0, 3, 2, 0, 3, 3, 1, 2]
    neighbor_start := [0, 3, 6, 9, 12]
    zone_id := [0, 0, 1, 1] }

/-- Rat file with three rats, all on node 0 of a graph of 4 nodes. -/
def rats3_file : rat_file :=
  { header := some 4
    positions := [some 0, some 0, some 0] }

/-- What `read_rats` returns for `ring4` and `rats3_file` with global seed 1, when
`reseed` yields the sum of the seed words. -/
def rats3 : state_t :=
  { g := ring4
    nrat := 3
    global_seed := 1
    batch_size := 1
    rat_position := [0, 0, 0]
    rat_seed := [1, 2, 3]
    rat_count := [0, 0, 0, 0] }

/-- Ceiling of the square root of `n`, the grid width the specification names. -/
def ceil_sqrt (n : Nat) : Nat :=
  if int_sqrt n * int_sqrt n = n then int_sqrt n else int_sqrt n + 1

/-- Five nodes without edges and two zone rectangles: row 0 and rows 1 to 2 of a grid
three columns wide. -/
def five_file : graph_file :=
  { header := some 5
    nodes := [true, true, true, true, true]
    edges := []
    zones := [⟨true, 0, 0, 3, 1⟩, ⟨true, 0, 1, 3, 2⟩] }

/-- What `read_graph five_file 2` returns. -/
def five : graph_t :=
  { new_graph 5 0 2 with
    neighbor := [0, 1, 2, 3, 4]
    neighbor_start := [0, 0, 0, 0, 0, 5]
    zone_id := [0, 0, 1, 1, 1] }

/-- Four nodes on a cycle and a single zone rectangle that covers the cell (0, 0) of
the 2 x 2 grid only. -/
def gap_file : graph_file :=
  { header := some 4
    nodes := [true, true, true, true]
    edges := [some (0, 1), some (1, 2), some (2, 3), some (3, 0)]
    zones := [⟨true, 0, 0, 1, 1⟩] }

/-- What `read_graph gap_file 1` returns. -/
def gap : graph_t :=
  { new_graph 4 4 1 with
    neighbor := [0, 1, 1, 2, 2, 3, 3, 0]
    neighbor_start := [0, 2, 4, 6, 8]
    zone_id := [0, -1, -1, -1] }

/-- The complete bipartite graph between the nodes 0, 2, 4 and 1, 3, 5, every edge
given in both directions, on a grid two columns wide with one zone rectangle per
column. -/
def k33_file : graph_file :=
  { header := some 6
    nodes := [true, true, true, true, true, true]
    edges := [some (0, 1), some (0, 3), some (0, 5), some (1, 0), some (1, 2), some (1, 4),
              some (2, 1), some (2, 3), some (2, 5), some (3, 0), some (3, 2), some (3, 4),
              some (4, 1), some (4, 3), some (4, 5), some (5, 0), some (5, 2), some (5, 4)]
    zones := [⟨true, 0, 0, 1, 3⟩, ⟨true, 1, 0, 1, 3⟩] }

/-- What `read_graph k33_file 2` returns. -/
def k33 : graph_t :=
  { new_graph 6 18 2 with
    neighbor := [0, 1, 3, 5, 1, 0, 2, 4, 2, 1, 3, 5, 3, 0, 2, 4, 4, 1, 3, 5, 5, 0, 2, 4]
    neighbor_start := [0, 4, 8, 12, 16, 20, 24]
    zone_id := [0, 1, 0, 1, 0, 1] }

/-- The 2 x 2 grid of `ring4_file` with three zone rectangles: row 0, and the two
cells of row 1. -/
def ring4_three_file : graph_file :=
  { ring4_file with
    zones := [⟨true, 0, 0, 2, 1⟩, ⟨true, 0, 1, 1, 1⟩, ⟨true, 1, 1, 1, 1⟩] }

/-- The 2 x 2 grid of `ring4_file` with a single zone rectangle. -/
def ring4_one_file : graph_file :=
  { ring4_file with zones := [⟨true, 0, 0, 2, 2⟩] }

/-! ## Binary64 arithmetic of new_rats -/

/-- Number of binary digits of `n` (for `n < 2^256`). -/
def bit_size_loop : Nat → Nat → Nat
  | 0, _ => 0
  | k + 1, n => if n = 0 then 0 else bit_size_loop k (n / 2) + 1

/-- Number of binary digits of `n`, for the magnitudes met here (`n < 2^256`). -/
def bit_size (n : Nat) : Nat := bit_size_loop 256 n

/-- Rounding of binary64 arithmetic, on a value scaled to an integer: the value is
`p`, or lies strictly between `p` and `p + 1` when `sticky` is set, and is rounded to
the nearest number with at most 53 significant binary digits, ties to even. -/
def round53 (sticky : Bool) (p : Nat) : Nat :=
  let s := bit_size p - 53
  let q := p / 2 ^ s
  let rem := p % 2 ^ s
  if s = 0 then p
  else if 2 * rem > 2 ^ s ∨ (2 * rem = 2 ^ s ∧ (sticky = true ∨ q % 2 = 1)) then (q + 1) * 2 ^ s
  else q * 2 ^ s

/-- The constant `BATCH_FRACTION` (crun.h): the binary64 number nearest to 0.02 is
`batch_fraction_mant / 2^58`. -/
def batch_fraction_mant : Nat := 5764607523034235

/-- Value of `(int) (BATCH_FRACTION * nrat)` in binary64 arithmetic: the product of
the two doubles is rounded, then truncated. -/
def rpct_binary64 (nrat : Nat) : Nat :=
  round53 false (nrat * batch_fraction_mant) / 2 ^ 58

/-- Floor of the square root of `n`, one binary digit of the root at a time from
`2^(k-1)` down; `r` is the part of the root found so far. -/
def sqrt_bits (n : Nat) : Nat → Nat → Nat
  | 0, r => r
  | k + 1, r =>
    if (r + 2 ^ k) * (r + 2 ^ k) ≤ n then sqrt_bits n k (r + 2 ^ k) else sqrt_bits n k r

/-- Value of `(int) sqrt(n)` in binary64 arithmetic for an `int` `n`: the square root is
correctly rounded (here from its first 60 binary places), then truncated. -/
def sroot_binary64 (n : Nat) : Nat :=
  let r := sqrt_bits (n * 2 ^ 120) 80 0
  round53 (decide (r * r ≠ n * 2 ^ 120)) r / 2 ^ 60


/-- A path on three nodes, every edge in both directions, on a grid one column wide,
with two zone rectangles: rows 0 to 1, and row 2. -/
def path3_file : graph_file :=
  { header := some 3
    nodes := [true, true, true]
    edges := [some (0, 1), some (1, 0), some (1, 2), some (2, 1)]
    zones := [⟨true, 0, 0, 1, 2⟩, ⟨true, 0, 2, 1, 1⟩] }

/-- What `read_graph path3_file 2` returns. -/
def path3 : graph_t :=
  { new_graph 3 4 2 with
    neighbor := [0, 1, 1, 0, 2, 2, 1]
    neighbor_start := [0, 2, 5, 7]
    zone_id := [0, 0, 1] }

/-- The lists of `setup_zone` before the scan of a graph with two zones. -/
def scan_init2 : scan_t :=
  { local_node_list := []
    export_node_list := List.replicate 2 []
    import_node_list := List.replicate 2 [] }


/-! # Theorems -/

/-! ## The edge section of read_graph -/

theorem start_nodes_nid (k : Nat) (b : build_t) : (start_nodes k b).nid = b.nid + k := by
  induction k generalizing b with
  | zero => simp [start_nodes]
  | succ k ih => simp [start_nodes, ih]; ring

theorem start_nodes_eid (k : Nat) (b : build_t) : (start_nodes k b).eid = b.eid + k := by
  induction k generalizing b with
  | zero => simp [start_nodes]
  | succ k ih => simp [start_nodes, ih]; ring

theorem start_nodes_start_length (k : Nat) (b : build_t) :
    (start_nodes k b).neighbor_start.length = b.neighbor_start.length := by
  induction k generalizing b with
  | zero => simp [start_nodes]
  | succ k ih => simp [start_nodes, ih]

theorem fill_isolated_nid (k : Nat) (b : build_t) : (fill_isolated k b).nid = b.nid + k := by
  induction k generalizing b with
  | zero => simp [fill_isolated]
  | succ k ih => simp [fill_isolated, ih]; ring

theorem fill_isolated_eid (k : Nat) (b : build_t) : (fill_isolated k b).eid = b.eid + k := by
  induction k generalizing b with
  | zero => simp [fill_isolated]
  | succ k ih => simp [fill_isolated, ih]; ring

theorem fill_isolated_start (k : Nat) (b : build_t) :
    (fill_isolated k b).neighbor_start = b.neighbor_start := by
  induction k generalizing b with
  | zero => simp [fill_isolated]
  | succ k ih => simp [fill_isolated, ih]

/-- Writing the first free slot of a zero-padded array extends the written part. -/
theorem set_written (W : List Int) (m : Nat) (v : Int) :
    (W ++ List.replicate (m + 1) 0).set W.length v = (W ++ [v]) ++ List.replicate m 0 := by
  simp [List.set_append, List.replicate_succ]

theorem self_edges_succ (c k : Nat) :
    self_edges c (k + 1) = (c : Int) :: self_edges (c + 1) k := by
  simp [self_edges, List.range'_succ]

theorem start_nodes_neighbor (k : Nat) : ∀ (b : build_t) (c m : Nat) (W : List Int),
    b.nid = (c : Int) - 1 → b.neighbor = W ++ List.replicate (m + k) 0 → W.length = b.eid →
    (start_nodes k b).neighbor = (W ++ self_edges c k) ++ List.replicate m 0 := by
  induction k with
  | zero => intro b c m W _ hW _; simpa [start_nodes, self_edges] using hW
  | succ k ih =>
    intro b c m W hnid hW hlen
    have h1 : b.neighbor.set b.eid (b.nid + 1) = (W ++ [(c : Int)]) ++ List.replicate (m + k) 0 := by
      rw [hW, ← hlen, hnid]
      have := set_written W (m + k) (c : Int)
      simpa [Nat.add_assoc] using this
    have := ih { nid := b.nid + 1, eid := b.eid + 1, neighbor := b.neighbor.set b.eid (b.nid + 1),
                 neighbor_start := b.neighbor_start.set (b.nid + 1).toNat b.eid }
      (c + 1) m (W ++ [(c : Int)]) (by simp [hnid]) h1 (by simp [hlen])
    simp only [start_nodes, this, self_edges_succ]
    simp

theorem fill_isolated_neighbor (k : Nat) : ∀ (b : build_t) (c m : Nat) (W : List Int),
    b.nid = (c : Int) - 1 → b.neighbor = W ++ List.replicate (m + k) 0 → W.length = b.eid →
    (fill_isolated k b).neighbor = (W ++ self_edges c k) ++ List.replicate m 0 := by
  induction k with
  | zero => intro b c m W _ hW _; simpa [fill_isolated, self_edges] using hW
  | succ k ih =>
    intro b c m W hnid hW hlen
    have h1 : b.neighbor.set b.eid (b.nid + 1) = (W ++ [(c : Int)]) ++ List.replicate (m + k) 0 := by
      rw [hW, ← hlen, hnid]
      have := set_written W (m + k) (c : Int)
      simpa [Nat.add_assoc] using this
    have := ih { b with nid := b.nid + 1, eid := b.eid + 1, neighbor := b.neighbor.set b.eid (b.nid + 1) }
      (c + 1) m (W ++ [(c : Int)]) (by simp [hnid]) h1 (by simp [hlen])
    simp only [fill_isolated, this, self_edges_succ]
    simp

theorem self_edges_length (c k : Nat) : (self_edges c k).length = k := by
  simp [self_edges]

/-- Adding nodes past every head adds their self edges only. -/
theorem adjacency_add_nodes (c k : Nat) (es : List (Int × Int))
    (h : ∀ e ∈ es, e.1 < (c : Int)) :
    adjacency (c + k) es = adjacency c es ++ self_edges c k := by
  induction k with
  | zero => simp [self_edges]
  | succ k ih =>
    have hnil : es.filter (fun e => e.1 = ((c + k : Nat) : Int)) = [] := by
      rw [List.filter_eq_nil_iff]
      intro e he
      have := h e he
      simp only [decide_eq_true_eq]
      push_cast
      omega
    have hr : self_edges c (k + 1) = self_edges c k ++ [((c + k : Nat) : Int)] := by
      simp [self_edges, List.range'_concat]
    rw [← Nat.add_assoc, adjacency, List.range_succ, List.flatMap_append, ← adjacency, ih, hr]
    simp only [List.flatMap_cons, List.flatMap_nil, hnil, List.map_nil, List.append_nil,
      List.append_assoc]

/-- An edge whose head is the last node extends the last block by its tail. -/
theorem adjacency_add_edge (c : Nat) (es : List (Int × Int)) (h t : Int)
    (hh : h = (c : Int)) :
    adjacency (c + 1) (es ++ [(h, t)]) = adjacency (c + 1) es ++ [t] := by
  have hpre : ∀ i ∈ List.range c,
      (fun i : Nat => (i : Int) :: ((es ++ [(h, t)]).filter (fun e => e.1 = (i : Int))).map Prod.snd) i
      = (fun i : Nat => (i : Int) :: (es.filter (fun e => e.1 = (i : Int))).map Prod.snd) i := by
    intro i hi
    have hi' : i < c := List.mem_range.mp hi
    have : ¬ h = (i : Int) := by omega
    simp [List.filter_append, this]
  simp only [adjacency, List.range_succ, List.flatMap_append]
  rw [List.flatMap_congr hpre]
  simp [List.filter_append, hh]

theorem read_edge_eq_some (nnode : Nat) (b b1 : build_t) (hid tid : Int)
    (h : read_edge nnode b hid tid = some b1) :
    (0 ≤ hid ∧ hid < (nnode : Int)) ∧ (0 ≤ tid ∧ tid < (nnode : Int)) ∧ b.nid ≤ hid ∧
    b1 = { start_nodes (hid - b.nid).toNat b with
            neighbor := (start_nodes (hid - b.nid).toNat b).neighbor.set
              (start_nodes (hid - b.nid).toNat b).eid tid
            eid := (start_nodes (hid - b.nid).toNat b).eid + 1 } := by
  unfold read_edge at h
  split_ifs at h with h1 h2 h3
  simp only [Option.some.injEq] at h
  refine ⟨by omega, by omega, by omega, h.symm⟩

theorem read_edge_isSome (nnode : Nat) (b : build_t) (hid tid : Int) :
    (read_edge nnode b hid tid).isSome ↔
      (0 ≤ hid ∧ hid < (nnode : Int)) ∧ (0 ≤ tid ∧ tid < (nnode : Int)) ∧ b.nid ≤ hid := by
  unfold read_edge
  split_ifs with h1 h2 h3 <;> simp <;> omega

theorem read_edge_nid (nnode : Nat) (b b1 : build_t) (hid tid : Int)
    (h : read_edge nnode b hid tid = some b1) : b1.nid = hid := by
  obtain ⟨_, _, h3, rfl⟩ := read_edge_eq_some nnode b b1 hid tid h
  simp only [start_nodes_nid]
  omega

theorem read_edge_start_length (nnode : Nat) (b b1 : build_t) (hid tid : Int)
    (h : read_edge nnode b hid tid = some b1) :
    b1.neighbor_start.length = b.neighbor_start.length := by
  obtain ⟨_, _, _, rfl⟩ := read_edge_eq_some nnode b b1 hid tid h
  simp only [start_nodes_start_length]

/-- One accepted edge record keeps the state of the edge loop. -/
theorem read_edge_inv (nnode : Nat) (ps : List (Int × Int)) (r : Nat) (b b1 : build_t)
    (c : Nat) (hid tid : Int) (hinv : edge_inv nnode ps (r + 1) b c)
    (h : read_edge nnode b hid tid = some b1) :
    edge_inv nnode (ps ++ [(hid, tid)]) r b1 (hid.toNat + 1) := by
  obtain ⟨⟨h0, h1⟩, _, h3, rfl⟩ := read_edge_eq_some nnode b b1 hid tid h
  obtain ⟨hnid, hle, hnb, hlen, heid, hheads⟩ := hinv
  have hk : (hid - b.nid).toNat = hid.toNat + 1 - c := by omega
  have hc : c ≤ hid.toNat + 1 := by omega
  have hadd : adjacency (hid.toNat + 1) ps = adjacency c ps ++ self_edges c (hid.toNat + 1 - c) := by
    rw [← adjacency_add_nodes c (hid.toNat + 1 - c) ps hheads]
    congr 1
    omega
  have hsn := start_nodes_neighbor (hid.toNat + 1 - c) b c ((nnode - (hid.toNat + 1)) + r + 1)
    (adjacency c ps) hnid (by rw [hnb]; congr 2; omega) hlen
  rw [← hadd] at hsn
  have hlen1 : (adjacency (hid.toNat + 1) ps).length = b.eid + (hid.toNat + 1 - c) := by
    rw [hadd, List.length_append, hlen, self_edges_length]
  have hedge := adjacency_add_edge hid.toNat ps hid tid (by omega)
  refine ⟨?_, by omega, ?_, ?_, ?_, ?_⟩
  · simp only [start_nodes_nid]; omega
  · simp only [hk, hsn, start_nodes_eid, ← hlen1, hedge]
    exact set_written _ _ _
  · simp only [hk, start_nodes_eid, hedge, List.length_append, hlen1, List.length_singleton]
  · simp only [hk, start_nodes_eid, List.length_append, List.length_singleton]; omega
  · intro e he
    rcases List.mem_append.mp he with he | he
    · have := hheads e he; omega
    · simp only [List.mem_singleton] at he
      subst he
      simp only
      omega

/-- The edge loop on parsed records keeps the state of the loop. -/
theorem read_edges_inv (nnode : Nat) : ∀ (rest ps : List (Int × Int)) (b b1 : build_t) (c : Nat),
    edge_inv nnode ps rest.length b c →
    read_edges nnode (rest.map some) b = some b1 →
    ∃ c1, edge_inv nnode (ps ++ rest) 0 b1 c1 ∧
      b1.neighbor_start.length = b.neighbor_start.length := by
  intro rest
  induction rest with
  | nil =>
    intro ps b b1 c hinv h
    simp only [List.map_nil, read_edges, Option.some.injEq] at h
    subst h
    exact ⟨c, by simpa using hinv, rfl⟩
  | cons e rest ih =>
    intro ps b b1 c hinv h
    obtain ⟨hid, tid⟩ := e
    simp only [List.map_cons, read_edges] at h
    cases h2 : read_edge nnode b hid tid with
    | none => simp [h2] at h
    | some b2 =>
      simp only [h2] at h
      obtain ⟨c1, hc1, hl⟩ := ih (ps ++ [(hid, tid)]) b2 b1 (hid.toNat + 1)
        (read_edge_inv nnode ps rest.length b b2 c hid tid hinv h2) h
      refine ⟨c1, by simpa using hc1, ?_⟩
      rw [hl, read_edge_start_length nnode b b2 hid tid h2]

/-- The edge loop accepts parsed records exactly when all ids are in range and every
head is at least the last node started. -/
theorem read_edges_isSome (nnode : Nat) : ∀ (es : List (Int × Int)) (b : build_t),
    (read_edges nnode (es.map some) b).isSome ↔
      (∀ e ∈ es, (0 ≤ e.1 ∧ e.1 < (nnode : Int)) ∧ (0 ≤ e.2 ∧ e.2 < (nnode : Int))) ∧
      List.Chain (fun a b : Int => a ≤ b) b.nid (es.map Prod.fst) := by
  intro es
  induction es with
  | nil => intro b; simp [read_edges]
  | cons e es ih =>
    intro b
    obtain ⟨hid, tid⟩ := e
    simp only [List.map_cons, read_edges]
    cases h2 : read_edge nnode b hid tid with
    | none =>
      have := read_edge_isSome nnode b hid tid
      simp only [h2, Option.isSome_none, Bool.false_eq_true, false_iff] at this
      simp only [Option.isSome_none, Bool.false_eq_true, List.mem_cons, forall_eq_or_imp,
        List.chain_cons, false_iff]
      tauto
    | some b2 =>
      have h3 := (read_edge_isSome nnode b hid tid).mp (by simp [h2])
      have h4 := read_edge_nid nnode b b2 hid tid h2
      simp only [ih b2, h4, List.mem_cons, forall_eq_or_imp, List.chain_cons]
      tauto

/-! ## read_graph as a whole -/

theorem read_graph_eq_null_iff (nnode : Nat) (nodes : List Bool)
    (edges : List (Option (Int × Int))) (zones : List zone_line) (nzone : Nat)
    (hz : 0 < nzone) :
    read_graph ⟨some nnode, nodes, edges, zones⟩ nzone = .null ↔
      read_edges nnode edges (build_init nnode edges.length) = none := by
  have hz' : nzone ≠ 0 := by omega
  simp only [read_graph, new_graph, hz', if_false, build_init]
  cases read_edges nnode edges
      { nid := -1, eid := 0, neighbor := List.replicate (nnode + edges.length) 0,
        neighbor_start := List.replicate (nnode + 1) 0 } with
  | none => simp
  | some b =>
    simp only
    split_ifs <;> simp

theorem read_graph_isGraph_iff (nnode : Nat) (nodes : List Bool)
    (edges : List (Option (Int × Int))) (zones : List zone_line) (nzone : Nat)
    (hz : 0 < nzone) (hdiv : nnode = 0 ∨ nzone ≤ zones.length) :
    (∃ g, read_graph ⟨some nnode, nodes, edges, zones⟩ nzone = .graph g) ↔
      (read_edges nnode edges (build_init nnode edges.length)).isSome := by
  have hz' : nzone ≠ 0 := by omega
  have hq : ¬ (0 < nnode ∧ zones.length / nzone = 0) := by
    rintro ⟨h1, h2⟩
    rcases hdiv with h | h
    · omega
    · have := Nat.div_pos h hz
      omega
  simp only [read_graph, new_graph, hz', if_false, build_init]
  cases read_edges nnode edges
      { nid := -1, eid := 0, neighbor := List.replicate (nnode + edges.length) 0,
        neighbor_start := List.replicate (nnode + 1) 0 } with
  | none => simp
  | some b => simp [hq]

/-- What a successful load returns, field by field. -/
theorem read_graph_eq_graph (f : graph_file) (nzone : Nat) (g : graph_t)
    (h : read_graph f nzone = .graph g) :
    ∃ nnode b, f.header = some nnode ∧ 0 < nzone ∧
      read_edges nnode f.edges (build_init nnode f.edges.length) = some b ∧
      ¬ (0 < nnode ∧ f.zones.length / nzone = 0) ∧
      g.nnode = nnode ∧ g.nedge = f.edges.length ∧ g.nzone = nzone ∧
      g.neighbor = (fill_isolated ((nnode : Int) - 1 - b.nid).toNat b).neighbor ∧
      g.neighbor_start =
        (fill_isolated ((nnode : Int) - 1 - b.nid).toNat b).neighbor_start.set nnode
          (fill_isolated ((nnode : Int) - 1 - b.nid).toNat b).eid ∧
      g.zone_id = (List.range nnode).map
        (node_zone (f.zones.map zone_of_line) (int_sqrt nnode)
          (f.zones.length / nzone)) := by
  unfold read_graph at h
  cases hh : f.header with
  | none => simp [hh] at h
  | some nnode =>
    simp only [hh] at h
    by_cases hz : nzone = 0
    · simp [hz] at h
    · simp only [hz, if_false, new_graph] at h
      cases he : read_edges nnode f.edges
          { nid := -1, eid := 0, neighbor := List.replicate (nnode + f.edges.length) 0,
            neighbor_start := List.replicate (nnode + 1) 0 } with
      | none => simp [he] at h
      | some b =>
        simp only [he] at h
        split_ifs at h with h1
        simp only [load_t.graph.injEq] at h
        subst h
        exact ⟨nnode, b, rfl, by omega, he, h1, rfl, rfl, rfl, rfl, rfl, rfl⟩

theorem read_edges_all_parsed (nnode : Nat) : ∀ (edges : List (Option (Int × Int)))
    (b b1 : build_t), read_edges nnode edges b = some b1 →
    edges = (edges.filterMap id).map some := by
  intro edges
  induction edges with
  | nil => intro _ _ _; rfl
  | cons e edges ih =>
    intro b b1 h
    cases e with
    | none => simp [read_edges] at h
    | some e =>
      obtain ⟨hid, tid⟩ := e
      simp only [read_edges] at h
      cases h2 : read_edge nnode b hid tid with
      | none => simp [h2] at h
      | some b2 =>
        simp only [h2] at h
        have := ih b2 b1 h
        simp only [List.filterMap_cons, id, List.map_cons, List.cons.injEq, true_and]
        exact this

theorem build_init_inv (nnode nedge : Nat) :
    edge_inv nnode [] nedge (build_init nnode nedge) 0 := by
  refine ⟨by simp [build_init], by omega, ?_, ?_, ?_, ?_⟩
  · simp [build_init, adjacency]
  · simp [build_init, adjacency]
  · simp [build_init]
  · simp

/-- The neighbor array of a loaded graph, for parsed edge records `es`. -/
theorem read_graph_neighbor (f : graph_file) (nzone : Nat) (g : graph_t)
    (h : read_graph f nzone = .graph g) :
    ∃ nnode, f.header = some nnode ∧ g.nnode = nnode ∧
      f.edges = (f.edges.filterMap id).map some ∧
      g.neighbor = adjacency nnode (f.edges.filterMap id) ∧
      g.neighbor.length = nnode + f.edges.length ∧
      g.neighbor_start.length = nnode + 1 ∧
      g.neighbor_start[nnode]? = some (nnode + f.edges.length) := by
  obtain ⟨nnode, b, hh, _, he, _, hn, _, _, hnb, hst, _⟩ := read_graph_eq_graph f nzone g h
  have hparsed := read_edges_all_parsed nnode f.edges _ b he
  have hlen : (f.edges.filterMap id).length = f.edges.length := by
    conv_rhs => rw [hparsed]
    simp
  rw [hparsed, List.length_map, hlen] at he
  obtain ⟨c1, hinv, hsl⟩ := read_edges_inv nnode (f.edges.filterMap id) [] _ b 0
    (by rw [hlen]; exact build_init_inv nnode f.edges.length) he
  simp only [List.nil_append] at hinv
  obtain ⟨hnid, hle, hneigh, hlen2, heid, hheads⟩ := hinv
  have hk : ((nnode : Int) - 1 - b.nid).toNat = nnode - c1 := by omega
  have hfill := fill_isolated_neighbor (nnode - c1) b c1 0 (adjacency c1 (f.edges.filterMap id))
    hnid (by rw [hneigh]; simp) hlen2
  have hadj : adjacency nnode (f.edges.filterMap id)
      = adjacency c1 (f.edges.filterMap id) ++ self_edges c1 (nnode - c1) := by
    rw [← adjacency_add_nodes c1 (nnode - c1) _ hheads]
    congr 1
    omega
  have hneighbor : g.neighbor = adjacency nnode (f.edges.filterMap id) := by
    rw [hnb, hk, hfill, hadj]; simp
  have hlen3 : (adjacency nnode (f.edges.filterMap id)).length = nnode + f.edges.length := by
    rw [hadj, List.length_append, hlen2, heid, self_edges_length, hlen]; omega
  have hslen : b.neighbor_start.length = nnode + 1 := by
    rw [hsl]; simp [build_init]
  refine ⟨nnode, hh, hn, hparsed, hneighbor, by rw [hneighbor, hlen3], ?_, ?_⟩
  · rw [hst, List.length_set, fill_isolated_start, hslen]
  · rw [hst, hk, fill_isolated_start, fill_isolated_eid, heid, hlen]
    rw [List.getElem?_set]
    simp only [hslen, if_true]
    simp only [Nat.lt_succ_self, if_true, Option.some.injEq]
    omega

/-- The three rejections of the edge loop, read on the whole edge list: some edge has
a head or a tail out of range or a head below the head of an earlier edge. -/
theorem chain_iff_no_bad_edge (nnode : Nat) (es : List (Int × Int)) :
    ((∀ e ∈ es, (0 ≤ e.1 ∧ e.1 < (nnode : Int)) ∧ (0 ≤ e.2 ∧ e.2 < (nnode : Int))) ∧
      List.Chain (fun a b : Int => a ≤ b) (-1) (es.map Prod.fst)) ↔
    ¬ bad_edge nnode es := by
  unfold bad_edge
  rw [List.chain_iff_pairwise, List.pairwise_cons]
  constructor
  · rintro ⟨hr, _, hp⟩ ⟨i, hd, tl, hi, hbad⟩
    have hmem : (hd, tl) ∈ es := List.getElem?_mem hi
    have := hr _ hmem
    rcases hbad with hbad | hbad | ⟨j, hd', tl', hji, hj, hlt⟩
    · simp only at this; omega
    · simp only at this; omega
    · rw [List.pairwise_iff_getElem] at hp
      obtain ⟨hil, hie⟩ := List.getElem?_eq_some.mp hi
      obtain ⟨hjl, hje⟩ := List.getElem?_eq_some.mp hj
      have := hp j i (by simpa using hjl) (by simpa using hil) hji
      simp only [List.getElem_map, hie, hje] at this
      omega
  · intro hno
    have hr : ∀ e ∈ es, (0 ≤ e.1 ∧ e.1 < (nnode : Int)) ∧ (0 ≤ e.2 ∧ e.2 < (nnode : Int)) := by
      intro e he
      obtain ⟨i, hi⟩ := List.mem_iff_getElem?.mp he
      by_contra hc
      exact hno ⟨i, e.1, e.2, hi, by omega⟩
    refine ⟨hr, ?_, ?_⟩
    · intro a ha
      obtain ⟨e, he, rfl⟩ := List.mem_map.mp ha
      have := hr e he
      omega
    · rw [List.pairwise_iff_getElem]
      intro j i hj hi hji
      simp only [List.length_map] at hj hi
      simp only [List.getElem_map]
      by_contra hc
      exact hno ⟨i, es[i].1, es[i].2, by simp [hi], Or.inr (Or.inr
        ⟨j, es[j].1, es[j].2, hji, by simp [hj], by omega⟩)⟩

/-! ## fixup_list -/

theorem comp_le_iff (a b : Int) : comp_le a b ↔ a ≤ b := by
  unfold comp_le comp_int
  split_ifs <;> omega

theorem qsort_perm (l : List Int) : (qsort l).Perm l :=
  List.perm_insertionSort comp_le l

theorem qsort_sorted (l : List Int) : (qsort l).Pairwise (fun a b : Int => a ≤ b) := by
  have h : (qsort l).Sorted comp_le := List.sorted_insertionSort comp_le l
  exact List.Pairwise.imp (fun {a b} hab => (comp_le_iff a b).mp hab) h

theorem mem_qsort (l : List Int) (v : Int) : v ∈ qsort l ↔ v ∈ l :=
  (qsort_perm l).mem_iff

theorem fixup_loop_eq (xs : List Int) : ∀ (last : Int) (out : List Int) (n : Nat),
    fixup_loop xs last out n = (out ++ kept last xs, n + (kept last xs).length) := by
  induction xs with
  | nil => intro last out n; simp [fixup_loop, kept]
  | cons v vs ih =>
    intro last out n
    by_cases h : v = last
    · simp [fixup_loop, kept, h, ih]
    · simp [fixup_loop, kept, h, ih]; omega

theorem fixup_list_eq (l : List Int) :
    fixup_list l l.length = (kept (-1) (qsort l), (kept (-1) (qsort l)).length) := by
  simp [fixup_list, fixup_loop_eq]

/-- On sorted entries that are at least `last`, the loop keeps every value except
`last`. -/
theorem mem_kept (xs : List Int) : ∀ (last : Int),
    xs.Pairwise (fun a b : Int => a ≤ b) → (∀ x ∈ xs, last ≤ x) →
    ∀ v, v ∈ kept last xs ↔ v ∈ xs ∧ v ≠ last := by
  induction xs with
  | nil => intro last _ _ v; simp [kept]
  | cons x xs ih =>
    intro last hs hl v
    rw [List.pairwise_cons] at hs
    have hx : last ≤ x := hl x (List.mem_cons_self _ _)
    have ih' := ih x hs.2 hs.1 v
    by_cases h : x = last
    · subst h
      simp only [kept, ne_eq, not_true_eq_false, if_false, ih', List.mem_cons]
      tauto
    · simp only [kept, ne_eq, h, not_false_eq_true, if_true, List.mem_cons, ih']
      constructor
      · rintro (rfl | ⟨hv, hne⟩)
        · exact ⟨Or.inl rfl, h⟩
        · have := hs.1 v hv
          exact ⟨Or.inr hv, by omega⟩
      · rintro ⟨rfl | hv, hne⟩
        · exact Or.inl rfl
        · by_cases hvx : v = x
          · exact Or.inl hvx
          · exact Or.inr ⟨hv, hvx⟩

/-- On sorted entries that are at least `last`, what the loop keeps is strictly
ascending and above `last`. -/
theorem kept_ascending_above (xs : List Int) : ∀ (last : Int),
    xs.Pairwise (fun a b : Int => a ≤ b) → (∀ x ∈ xs, last ≤ x) →
    (kept last xs).Pairwise (fun a b : Int => a < b) ∧ ∀ v ∈ kept last xs, last < v := by
  induction xs with
  | nil => intro last _ _; simp [kept]
  | cons x xs ih =>
    intro last hs hl
    rw [List.pairwise_cons] at hs
    have hx : last ≤ x := hl x (List.mem_cons_self _ _)
    obtain ⟨ih1, ih2⟩ := ih x hs.2 hs.1
    by_cases h : x = last
    · subst h
      simp only [kept, ne_eq, not_true_eq_false, if_false]
      exact ⟨ih1, ih2⟩
    · simp only [kept, ne_eq, h, not_false_eq_true, if_true, List.pairwise_cons, List.mem_cons]
      refine ⟨⟨ih2, ih1⟩, ?_⟩
      rintro v (rfl | hv)
      · omega
      · have := ih2 v hv
        omega

/-- On sorted entries, what the loop keeps is strictly ascending, whatever `last`. -/
theorem kept_ascending (xs : List Int) (last : Int)
    (hs : xs.Pairwise (fun a b : Int => a ≤ b)) :
    (kept last xs).Pairwise (fun a b : Int => a < b) := by
  cases xs with
  | nil => simp [kept]
  | cons x xs =>
    rw [List.pairwise_cons] at hs
    obtain ⟨h1, h2⟩ := kept_ascending_above xs x hs.2 hs.1
    by_cases h : x = last
    · simp only [kept, h, ne_eq, not_true_eq_false, if_false]
      rw [← h]; exact h1
    · simp only [kept, ne_eq, h, not_false_eq_true, if_true, List.pairwise_cons]
      exact ⟨h2, h1⟩

/-- The list `fixup_list` returns is strictly ascending and its count is its length. -/
theorem fixup_list_ascending (l : List Int) :
    (fixup_list l l.length).1.Pairwise (fun a b : Int => a < b) ∧
    (fixup_list l l.length).2 = (fixup_list l l.length).1.length := by
  rw [fixup_list_eq]
  exact ⟨kept_ascending _ _ (qsort_sorted l), rfl⟩

/-- Two strictly ascending lists with the same members are the same list. -/
theorem ascending_ext (l1 l2 : List Int) (h1 : l1.Pairwise (fun a b : Int => a < b))
    (h2 : l2.Pairwise (fun a b : Int => a < b)) (h : ∀ v, v ∈ l1 ↔ v ∈ l2) : l1 = l2 := by
  have n1 : l1.Nodup := List.Pairwise.imp (fun {a b} hab => ne_of_lt hab) h1
  have n2 : l2.Nodup := List.Pairwise.imp (fun {a b} hab => ne_of_lt hab) h2
  exact List.eq_of_perm_of_sorted ((List.perm_ext_iff_of_nodup n1 n2).mpr h) h1 h2

/-! ## setup_zone: the scan of the nodes -/

theorem find_zone_loop_range (x y : Int) : ∀ (zones : List zone_t) (zid : Int),
    find_zone_loop x y zones zid = -1 ∨
      (zid ≤ find_zone_loop x y zones zid ∧
        find_zone_loop x y zones zid < zid + (zones.length : Int)) := by
  intro zones
  induction zones with
  | nil => intro zid; simp [find_zone_loop]
  | cons z zs ih =>
    intro zid
    simp only [find_zone_loop]
    split_ifs with h
    · right; simp only [List.length_cons]; push_cast; omega
    · rcases ih (zid + 1) with h1 | h1
      · left; exact h1
      · right; simp only [List.length_cons]; push_cast; omega

theorem wrap32_of_fits (a : Int) (h0 : -2147483648 ≤ a) (h1 : a ≤ 2147483647) :
    wrap32 a = a := by
  unfold wrap32; omega

theorem wrap32_sub_one (a : Int) : wrap32 (wrap32 a - 1) = wrap32 (a - 1) := by
  unfold wrap32; omega

/-- For a rectangle whose last column and row are `int` values, the test of
`find_zone` is containment. -/
theorem zone_test_iff_in_zone (z : zone_t) (x y : Int) (h : fits_int z) :
    zone_test z x y ↔ in_zone z x y := by
  obtain ⟨⟨hx0, hx1⟩, hy0, hy1⟩ := h
  unfold zone_test in_zone
  rw [wrap32_sub_one, wrap32_sub_one, wrap32_of_fits _ hx0 hx1, wrap32_of_fits _ hy0 hy1]

theorem find_zone_loop_found (x y : Int) : ∀ (zones : List zone_t) (zid : Int), 0 ≤ zid →
    (∃ z ∈ zones, zone_test z x y) → find_zone_loop x y zones zid ≠ -1 := by
  intro zones
  induction zones with
  | nil => intro zid _ h; simp at h
  | cons z zs ih =>
    intro zid h0 hex
    simp only [find_zone_loop]
    split_ifs with h
    · omega
    · apply ih (zid + 1) (by omega)
      obtain ⟨z1, hz1, hin⟩ := hex
      rcases List.mem_cons.mp hz1 with rfl | hz1
      · exact absurd hin h
      · exact ⟨z1, hz1, hin⟩

/-- When the test accepts the cell for some rectangle, `find_zone` returns an index of
the list. -/
theorem find_zone_found (zones : List zone_t) (x y : Int)
    (hex : ∃ z ∈ zones, zone_test z x y) :
    0 ≤ find_zone zones x y ∧ find_zone zones x y < (zones.length : Int) := by
  unfold find_zone
  have h1 := find_zone_loop_range x y zones 0
  have h2 := find_zone_loop_found x y zones 0 (le_refl 0) hex
  omega

/-- When some rectangle with `int` bounds contains the cell, `find_zone` returns an
index of the list. -/
theorem find_zone_found_of_in_zone (zones : List zone_t) (x y : Int)
    (hex : ∃ z ∈ zones, fits_int z ∧ in_zone z x y) :
    0 ≤ find_zone zones x y ∧ find_zone zones x y < (zones.length : Int) := by
  obtain ⟨z, hz, hfit, hin⟩ := hex
  exact find_zone_found zones x y ⟨z, hz, (zone_test_iff_in_zone z x y hfit).mpr hin⟩

/-- A file zone index below `fnzone`, a multiple of `nzone`, is mapped below `nzone`. -/
theorem tdiv_zone_bound (zid : Int) (fnzone nzone : Nat) (hz : 0 < nzone)
    (hpos : 0 < fnzone) (hmul : nzone ∣ fnzone) (h0 : 0 ≤ zid) (h1 : zid < (fnzone : Int)) :
    0 ≤ Int.tdiv zid ((fnzone / nzone : Nat) : Int) ∧
      Int.tdiv zid ((fnzone / nzone : Nat) : Int) < (nzone : Int) := by
  obtain ⟨k, rfl⟩ := hmul
  have hk : 0 < k := by
    rcases Nat.eq_zero_or_pos k with rfl | hk
    · simp at hpos
    · exact hk
  rw [Nat.mul_div_cancel_left k hz]
  have hk' : (0 : Int) < (k : Int) := by exact_mod_cast hk
  rw [Int.tdiv_eq_ediv h0 (le_of_lt hk')]
  refine ⟨Int.ediv_nonneg h0 (le_of_lt hk'), ?_⟩
  rw [Int.ediv_lt_iff_lt_mul hk']
  push_cast at h1
  exact h1

/-! ## read_rats -/

theorem read_rats_eq_some (reseed : Nat → List Nat → Nat) (g : graph_t) (f : rat_file)
    (global_seed : Nat) (s : state_t) (h : read_rats reseed g f global_seed = some s) :
    f.header = some g.nnode ∧ s.g = g ∧ s.nrat = f.positions.length ∧
    s.global_seed = global_seed ∧ s.rat_count = List.replicate g.nnode 0 ∧
    read_positions g.nnode f.positions 0 (List.replicate f.positions.length 0)
      = some s.rat_position := by
  unfold read_rats at h
  cases hh : f.header with
  | none => simp [hh] at h
  | some nnode =>
    simp only [hh] at h
    split_ifs at h with hn
    simp only [ne_eq, not_not] at hn
    subst hn
    cases hp : read_positions g.nnode f.positions 0
        (new_rats g f.positions.length global_seed).rat_position with
    | none => simp [hp] at h
    | some pos =>
      simp only [hp, Option.some.injEq] at h
      subst h
      simp only [new_rats] at hp
      exact ⟨rfl, rfl, rfl, rfl, rfl, hp⟩

/-! ## Shared facts about the finished lists -/

theorem isqrt_from_spec (n : Nat) : ∀ k,
    isqrt_from n k ≤ k ∧ isqrt_from n k * isqrt_from n k ≤ n ∧
      ∀ j, j ≤ k → j * j ≤ n → j ≤ isqrt_from n k := by
  intro k
  induction k with
  | zero => simp [isqrt_from]
  | succ k ih =>
    obtain ⟨h1, h2, h3⟩ := ih
    simp only [isqrt_from]
    split_ifs with hle
    · exact ⟨le_refl _, hle, fun j hj _ => hj⟩
    · refine ⟨by omega, h2, ?_⟩
      intro j hj hjn
      rcases Nat.eq_or_lt_of_le hj with rfl | hlt
      · exact absurd hjn hle
      · exact h3 j (by omega) hjn

/-- `int_sqrt n` is the floor of the square root of `n`. -/
theorem int_sqrt_spec (n : Nat) :
    int_sqrt n * int_sqrt n ≤ n ∧ n < (int_sqrt n + 1) * (int_sqrt n + 1) := by
  obtain ⟨h1, h2, h3⟩ := isqrt_from_spec n n
  refine ⟨h2, ?_⟩
  by_contra hc
  have hle : (int_sqrt n + 1) * (int_sqrt n + 1) ≤ n := by omega
  have hn : int_sqrt n + 1 ≤ n := by nlinarith
  have := h3 (int_sqrt n + 1) hn hle
  unfold int_sqrt at this
  omega

theorem int_sqrt_eq_sqrt (n : Nat) : int_sqrt n = Nat.sqrt n := by
  obtain ⟨h1, h2⟩ := int_sqrt_spec n
  exact (Nat.eq_sqrt.mpr ⟨h1, h2⟩)

/-- A loaded graph has one zone id per node. -/
theorem read_graph_zone_id_length (f : graph_file) (nzone : Nat) (g : graph_t)
    (h : read_graph f nzone = .graph g) : g.zone_id.length = g.nnode := by
  obtain ⟨nnode, _, _, _, _, _, hn, _, _, _, _, hzid⟩ := read_graph_eq_graph f nzone g h
  rw [hzid, hn]
  simp

/-! ## The claims -/

/-- C1 (the code departs from the claim): on the sample of the specification, 4 nodes
with edges (0,1), (1,2), (2,3), `read_graph` returns `neighbor_start = [0,2,4,0,7]` and
not `[0,2,4,6,7]`. The loop that fills out the nodes after the last head stores the
self edge of node 3 but not `neighbor_start[3]`, which keeps the zero of `calloc`: the
slice of node 2 is empty and the slice of node 3 begins at slot 0, with the self edge
of node 0. -/
theorem read_graph_trailing_start_unset :
    read_graph line4_file 1 = .graph line4 ∧
    line4.neighbor_start = [0, 2, 4, 0, 7] ∧
    ¬ (line4.neighbor_start.getD 2 0 < line4.neighbor_start.getD 3 0) ∧
    line4.neighbor.getD (line4.neighbor_start.getD 3 0) 0 ≠ 3 := by
  decide

/-- C2: for a header with `nnode` nodes and parsed edge records `es`, `read_graph`
(called with at least one zone) returns NULL if and only if some edge has its head
outside `[0, nnode)`, or its tail outside `[0, nnode)`, or a head smaller than the head
of an earlier edge. When the later division by `fnzone / nzone` is defined (no node, or
`fnzone >= nzone`), it returns a graph if and only if there is no such edge. -/
theorem read_graph_null_iff_bad_edge (nnode : Nat) (nodes : List Bool)
    (es : List (Int × Int)) (zones : List zone_line) (nzone : Nat) (hz : 0 < nzone) :
    (read_graph ⟨some nnode, nodes, es.map some, zones⟩ nzone = .null ↔ bad_edge nnode es) ∧
    (nnode = 0 ∨ nzone ≤ zones.length →
      ((∃ g, read_graph ⟨some nnode, nodes, es.map some, zones⟩ nzone = .graph g) ↔
        ¬ bad_edge nnode es)) := by
  have h1 := read_edges_isSome nnode es (build_init nnode (es.map some).length)
  have h2 := chain_iff_no_bad_edge nnode es
  have h3 : (build_init nnode (es.map some).length).nid = -1 := rfl
  rw [h3, h2] at h1
  refine ⟨?_, fun hdiv => ?_⟩
  · rw [read_graph_eq_null_iff nnode nodes (es.map some) zones nzone hz, ← not_iff_not, ← h1]
    cases read_edges nnode (es.map some) (build_init nnode (es.map some).length) <;> simp
  · rw [read_graph_isGraph_iff nnode nodes (es.map some) zones nzone hz hdiv, h1]

/-- Instance of C2: two nodes, edges (1,0), (0,1); the second head is below the first
and the load returns NULL. -/
theorem read_graph_null_iff_bad_edge_witness :
    0 < 1 ∧ read_graph ⟨some 2, [true, true], [(1, 0), (0, 1)].map some, []⟩ 1 = .null :=
  ⟨by decide,
    (read_graph_null_iff_bad_edge 2 [true, true] [(1, 0), (0, 1)] [] 1 (by decide)).1.mpr
      ⟨1, 0, 1, rfl, Or.inr (Or.inr ⟨0, 1, 0, by decide, rfl, by decide⟩)⟩⟩

/-- C3: when `read_graph` returns a graph for `nnode` nodes and parsed edge records
`es`, the neighbor array has `nnode + nedge` entries and is, for the nodes in order,
the node itself followed by the tails of the edges with that head in the order
supplied; and `neighbor_start[nnode] = nnode + nedge`. -/
theorem read_graph_neighbor_adjacency (nnode : Nat) (nodes : List Bool)
    (es : List (Int × Int)) (zones : List zone_line) (nzone : Nat) (g : graph_t)
    (h : read_graph ⟨some nnode, nodes, es.map some, zones⟩ nzone = .graph g) :
    g.nnode = nnode ∧ g.nedge = es.length ∧
    g.neighbor.length = nnode + es.length ∧
    g.neighbor = adjacency nnode es ∧
    g.neighbor_start[nnode]? = some (nnode + es.length) := by
  obtain ⟨n1, hh, hn, _, hnb, hlen, _, hst⟩ := read_graph_neighbor _ nzone g h
  obtain ⟨_, _, _, _, _, _, _, hne, _⟩ := read_graph_eq_graph _ nzone g h
  simp only [Option.some.injEq] at hh
  subst hh
  have hfm : (es.map some).filterMap id = es := by
    induction es with
    | nil => rfl
    | cons e es ih => simp [List.filterMap_cons]
  simp only [hfm, List.length_map] at hnb hlen hst hne
  exact ⟨hn, hne, hlen, hnb, hst⟩

/-- Instance of C3 on the sample of the specification. -/
theorem read_graph_neighbor_adjacency_witness :
    read_graph ⟨some 4, [true, true, true, true], [(0, 1), (1, 2), (2, 3)].map some,
        [⟨true, 0, 0, 2, 2⟩]⟩ 1 = .graph line4 ∧
    line4.neighbor = adjacency 4 [(0, 1), (1, 2), (2, 3)] ∧
    line4.neighbor_start[4]? = some (4 + 3) :=
  ⟨by decide,
    (read_graph_neighbor_adjacency 4 [true, true, true, true] [(0, 1), (1, 2), (2, 3)]
      [⟨true, 0, 0, 2, 2⟩] 1 line4 (by decide)).2.2.2.1,
    (read_graph_neighbor_adjacency 4 [true, true, true, true] [(0, 1), (1, 2), (2, 3)]
      [⟨true, 0, 0, 2, 2⟩] 1 line4 (by decide)).2.2.2.2⟩

/-- C4, as stated, fails: for the loaded graph `ring4` and three rats on node 0,
`read_rats` returns a state with `rat_count[0] = 0` although three rats stand on node
0, and the counts sum to 0, not to `nrat = 3`. -/
theorem read_rats_count_counterexample :
    read_graph ring4_file 2 = .graph ring4 ∧
    read_rats (fun _ seeds => seeds.sum) ring4 rats3_file 1 = some rats3 ∧
    rats3.rat_count.getD 0 0 = 0 ∧ rats3.rat_position.count 0 = 3 ∧
    rats3.rat_count.sum = 0 ∧ rats3.nrat = 3 := by
  decide

/-- C4, amended: the state `read_rats` returns has `rat_count[n] = 0` for every node
`n` (one zero per node of the graph), so the counts sum to 0; `rat_count[n]` is the
number of rats on `n` exactly for the nodes on which no rat stands. -/
theorem read_rats_count_zero (reseed : Nat → List Nat → Nat) (g : graph_t) (f : rat_file)
    (global_seed : Nat) (s : state_t) (h : read_rats reseed g f global_seed = some s) :
    s.rat_count = List.replicate g.nnode 0 ∧ s.rat_count.sum = 0 ∧
    ∀ n, n < g.nnode →
      (s.rat_count.getD n 0 = (s.rat_position.count (n : Int) : Int) ↔
        (n : Int) ∉ s.rat_position) := by
  obtain ⟨_, _, _, _, hc, _⟩ := read_rats_eq_some reseed g f global_seed s h
  refine ⟨hc, by simp [hc], ?_⟩
  intro n hn
  rw [hc, List.getD_eq_getElem?_getD, List.getElem?_replicate, if_pos hn, Option.getD_some]
  rw [← List.count_eq_zero]
  omega

/-- Instance of the amended C4 on `ring4` with three rats on node 0. -/
theorem read_rats_count_zero_witness :
    read_rats (fun _ seeds => seeds.sum) ring4 rats3_file 1 = some rats3 ∧
    rats3.rat_count = List.replicate ring4.nnode 0 :=
  ⟨by decide,
    (read_rats_count_zero (fun _ seeds => seeds.sum) ring4 rats3_file 1 rats3 (by decide)).1⟩

/-- C10 (the code departs from the claim): `tall_file` has 3 nodes in one column
(`ncol = (int) sqrt(3) = 1`) and two zone rectangles, rows 0 to 1 and the rows from 2
on with height 2147483647; read with `nzone = 2`, the zone count 2 is a positive
multiple of `nzone` and the cell of every node lies in a rectangle, yet for node 2
`find_zone` computes `zymax = 2 + 2147483647 - 1` in `int`, which wraps around, and
returns -1: the graph returned has `zone_id[2] = -1 / (2 / 2) = -1`, not a value in
`[0, nzone)`. -/
theorem read_graph_zone_id_overflow :
    read_graph tall_file 2 = .graph tall ∧
    0 < tall_file.zones.length ∧ 2 ∣ tall_file.zones.length ∧
    (∀ i, i < 3 → ∃ z ∈ tall_file.zones.map zone_of_line,
      in_zone z ((i % int_sqrt 3 : Nat) : Int) ((i / int_sqrt 3 : Nat) : Int)) ∧
    find_zone (tall_file.zones.map zone_of_line)
      ((2 % int_sqrt 3 : Nat) : Int) ((2 / int_sqrt 3 : Nat) : Int) = -1 ∧
    tall.zone_id[2]? = some (Int.tdiv (-1) ((tall_file.zones.length / 2 : Nat) : Int)) ∧
    tall.zone_id = [0, 0, -1] := by
  decide

/-- Zone ids away from overflow: when `read_graph` is called with `nzone > 0` on a file
whose zone count `fnzone` is a positive multiple of `nzone`, and the grid cell of every
node (column `i mod ncol`, row `i div ncol` for `ncol = (int) sqrt(nnode)`) lies in some
zone rectangle whose last column and row are `int` values, the graph it returns has
`zone_id[i] = zid / (fnzone / nzone)` for the index `zid >= 0` that `find_zone` returns
for the cell of node `i`, and `0 <= zone_id[i] < nzone`. -/
theorem read_graph_zone_id_of_fits (f : graph_file) (nzone nnode : Nat) (g : graph_t)
    (hz : 0 < nzone) (hh : f.header = some nnode)
    (hpos : 0 < f.zones.length) (hmul : nzone ∣ f.zones.length)
    (hcov : ∀ i, i < nnode → ∃ z ∈ f.zones.map zone_of_line, fits_int z ∧
      in_zone z ((i % int_sqrt nnode : Nat) : Int) ((i / int_sqrt nnode : Nat) : Int))
    (h : read_graph f nzone = .graph g) :
    ∀ i, i < nnode →
      0 ≤ find_zone (f.zones.map zone_of_line)
        ((i % int_sqrt nnode : Nat) : Int) ((i / int_sqrt nnode : Nat) : Int) ∧
      g.zone_id[i]? = some (Int.tdiv
        (find_zone (f.zones.map zone_of_line)
          ((i % int_sqrt nnode : Nat) : Int) ((i / int_sqrt nnode : Nat) : Int))
        ((f.zones.length / nzone : Nat) : Int)) ∧
      ∃ zone, g.zone_id[i]? = some zone ∧ 0 ≤ zone ∧ zone < (nzone : Int) := by
  obtain ⟨n1, _, hh1, _, _, _, _, _, _, _, _, hzid⟩ := read_graph_eq_graph f nzone g h
  rw [hh] at hh1
  simp only [Option.some.injEq] at hh1
  subst hh1
  intro i hi
  obtain ⟨hf0, hf1⟩ := find_zone_found_of_in_zone _ _ _ (hcov i hi)
  simp only [List.length_map] at hf1
  have hget : g.zone_id[i]? = some (Int.tdiv
      (find_zone (f.zones.map zone_of_line)
        ((i % int_sqrt nnode : Nat) : Int) ((i / int_sqrt nnode : Nat) : Int))
      ((f.zones.length / nzone : Nat) : Int)) := by
    rw [hzid, List.getElem?_map, List.getElem?_range hi]
    rfl
  obtain ⟨hb0, hb1⟩ := tdiv_zone_bound _ f.zones.length nzone hz hpos hmul hf0 hf1
  exact ⟨hf0, hget, _, hget, hb0, hb1⟩

/-- On the 2 x 2 grid file with one zone rectangle per row, at node 3: its cell (1, 1)
lies in rectangle 1, and its zone id is 1 / (2 / 2) = 1. -/
theorem read_graph_zone_id_of_fits_ring4 :
    read_graph ring4_file 2 = .graph ring4 ∧ 0 < 2 ∧ 2 ∣ ring4_file.zones.length ∧
    ring4.zone_id[3]? = some (Int.tdiv
      (find_zone (ring4_file.zones.map zone_of_line)
        ((3 % int_sqrt 4 : Nat) : Int) ((3 / int_sqrt 4 : Nat) : Int))
      ((ring4_file.zones.length / 2 : Nat) : Int)) :=
  ⟨by decide, by decide, by decide,
    ((read_graph_zone_id_of_fits ring4_file 2 4 ring4 (by decide) (by decide) (by decide)
      (by decide) (by decide) (by decide)) 3 (by decide)).2.1⟩

/-! ## find_zone, exactly -/

theorem find_zone_loop_eq_neg_one (x y : Int) : ∀ (zones : List zone_t) (zid : Int), 0 ≤ zid →
    (find_zone_loop x y zones zid = -1 ↔ ∀ z ∈ zones, ¬ zone_test z x y) := by
  intro zones
  induction zones with
  | nil => intro zid _; simp [find_zone_loop]
  | cons z zs ih =>
    intro zid h0
    simp only [find_zone_loop]
    have hin : zone_test z x y ↔ (z.x ≤ x ∧ x ≤ wrap32 (wrap32 (z.x + z.w) - 1) ∧
        z.y ≤ y ∧ y ≤ wrap32 (wrap32 (z.y + z.h) - 1)) :=
      Iff.rfl
    split_ifs with h
    · simp only [List.mem_cons, forall_eq_or_imp]
      constructor
      · intro hc; omega
      · intro hc; exact absurd (hin.mpr h) hc.1
    · rw [ih (zid + 1) (by omega)]
      simp only [List.mem_cons, forall_eq_or_imp]
      constructor
      · intro hc; exact ⟨fun hz => h (hin.mp hz), hc⟩
      · intro hc; exact hc.2

/-- The index the loop returns is the first rectangle, counted from `zid`, whose test
accepts the cell. -/
theorem find_zone_loop_first (x y : Int) : ∀ (zones : List zone_t) (zid : Int),
    find_zone_loop x y zones zid ≠ -1 → 0 ≤ zid →
    ∃ (i : Nat) (z : zone_t), find_zone_loop x y zones zid = zid + (i : Int) ∧
      zones[i]? = some z ∧ zone_test z x y ∧
      ∀ (j : Nat) (z1 : zone_t), j < i → zones[j]? = some z1 → ¬ zone_test z1 x y := by
  intro zones
  induction zones with
  | nil => intro zid h _; simp [find_zone_loop] at h
  | cons z zs ih =>
    intro zid h h0
    simp only [find_zone_loop] at h ⊢
    have hin : zone_test z x y ↔ (z.x ≤ x ∧ x ≤ wrap32 (wrap32 (z.x + z.w) - 1) ∧
        z.y ≤ y ∧ y ≤ wrap32 (wrap32 (z.y + z.h) - 1)) :=
      Iff.rfl
    split_ifs at h ⊢ with hc
    · exact ⟨0, z, by simp, by simp, hin.mpr hc, fun j _ hj => absurd hj (Nat.not_lt_zero j)⟩
    · obtain ⟨i, z1, he, hz, hz1, hmin⟩ := ih (zid + 1) h (by omega)
      refine ⟨i + 1, z1, by rw [he]; push_cast; ring, by simpa using hz, hz1, ?_⟩
      intro j z2 hj hz2
      cases j with
      | zero =>
        simp only [List.getElem?_cons_zero, Option.some.injEq] at hz2
        subst hz2
        exact fun hz => hc (hin.mp hz)
      | succ j =>
        simp only [List.getElem?_cons_succ] at hz2
        exact hmin j z2 (by omega) hz2

/-! ## fixup_list, exactly -/

/-- On sorted entries the loop keeps every value, except that it drops `last` when no
entry lies below `last`. -/
theorem mem_kept_any (xs : List Int) (last : Int)
    (hs : xs.Pairwise (fun a b : Int => a ≤ b)) (v : Int) :
    v ∈ kept last xs ↔ v ∈ xs ∧ (v ≠ last ∨ ∃ x ∈ xs, x < last) := by
  cases xs with
  | nil => simp [kept]
  | cons x xs =>
    rw [List.pairwise_cons] at hs
    have hk := mem_kept xs x hs.2 hs.1 v
    by_cases h : x = last
    · subst h
      simp only [kept, ne_eq, not_true_eq_false, if_false, hk, List.mem_cons]
      constructor
      · rintro ⟨hv, hne⟩
        exact ⟨Or.inr hv, Or.inl hne⟩
      · rintro ⟨hv, hne | ⟨y, hy, hlt⟩⟩
        · rcases hv with rfl | hv
          · exact absurd rfl hne
          · exact ⟨hv, hne⟩
        · rcases hy with rfl | hy
          · omega
          · have := hs.1 y hy
            omega
    · simp only [kept, ne_eq, h, not_false_eq_true, if_true, List.mem_cons, hk]
      constructor
      · rintro (rfl | ⟨hv, hne⟩)
        · exact ⟨Or.inl rfl, Or.inl h⟩
        · refine ⟨Or.inr hv, ?_⟩
          by_cases hlt : x < last
          · exact Or.inr ⟨x, Or.inl rfl, hlt⟩
          · have := hs.1 v hv
            left; omega
      · rintro ⟨rfl | hv, _⟩
        · exact Or.inl rfl
        · by_cases hvx : v = x
          · exact Or.inl hvx
          · exact Or.inr ⟨hv, hvx⟩

/-- Members of the list `fixup_list` returns, for any integers. -/
theorem mem_fixup_list_any (l : List Int) (v : Int) :
    v ∈ (fixup_list l l.length).1 ↔ v ∈ l ∧ (v ≠ -1 ∨ ∃ x ∈ l, x < -1) := by
  rw [fixup_list_eq]
  simp only
  rw [mem_kept_any (qsort l) (-1) (qsort_sorted l), mem_qsort]
  constructor
  · rintro ⟨hv, hne | ⟨x, hx, hlt⟩⟩
    · exact ⟨hv, Or.inl hne⟩
    · exact ⟨hv, Or.inr ⟨x, (mem_qsort l x).mp hx, hlt⟩⟩
  · rintro ⟨hv, hne | ⟨x, hx, hlt⟩⟩
    · exact ⟨hv, Or.inl hne⟩
    · exact ⟨hv, Or.inr ⟨x, (mem_qsort l x).mpr hx, hlt⟩⟩

/-! ## read_rats: positions and seeds -/

/-- Writing the first free slot of a zero-padded array, for any entry type. -/
theorem set_first_free {α : Type} (W : List α) (m : Nat) (d v : α) :
    (W ++ List.replicate (m + 1) d).set W.length v = (W ++ [v]) ++ List.replicate m d := by
  simp [List.set_append, List.replicate_succ]

theorem read_positions_ok (nnode : Nat) : ∀ (ps done : List Int),
    (∀ p ∈ ps, 0 ≤ p ∧ p < (nnode : Int)) →
    read_positions nnode (ps.map some) done.length (done ++ List.replicate ps.length 0)
      = some (done ++ ps) := by
  intro ps
  induction ps with
  | nil => intro done _; simp [read_positions]
  | cons p ps ih =>
    intro done h
    have hp := h p (List.mem_cons_self _ _)
    have hno : ¬ (p < 0 ∨ p ≥ (nnode : Int)) := by omega
    simp only [List.map_cons, read_positions, hno, if_false, List.length_cons]
    rw [set_first_free done ps.length 0 p]
    have := ih (done ++ [p]) (fun q hq => h q (List.mem_cons_of_mem _ hq))
    simpa using this

theorem read_positions_bad (nnode : Nat) : ∀ (ps : List Int) (r : Nat) (pos : List Int),
    (∃ p ∈ ps, ¬ (0 ≤ p ∧ p < (nnode : Int))) →
    read_positions nnode (ps.map some) r pos = none := by
  intro ps
  induction ps with
  | nil => intro r pos h; simp at h
  | cons p ps ih =>
    intro r pos h
    simp only [List.map_cons, read_positions]
    split_ifs with hc
    · rfl
    · apply ih
      obtain ⟨q, hq, hbad⟩ := h
      rcases List.mem_cons.mp hq with rfl | hq
      · omega
      · exact ⟨q, hq, hbad⟩

theorem seed_loop_eq (reseed : Nat → List Nat → Nat) (global_seed : Nat) :
    ∀ (k r : Nat) (done : List Nat), done.length = r →
    seed_loop reseed global_seed (List.range' r k) (done ++ List.replicate k 0)
      = done ++ (List.range' r k).map (fun i => reseed 0 [global_seed, i]) := by
  intro k
  induction k with
  | zero => intro r done _; simp [seed_loop]
  | succ k ih =>
    intro r done hlen
    have hget : (done ++ List.replicate (k + 1) 0).getD r 0 = 0 := by
      rw [List.getD_eq_getElem?_getD, List.getElem?_append_right (by omega)]
      simp [hlen, List.getElem?_replicate]
    simp only [List.range'_succ, seed_loop, hget, List.map_cons]
    rw [← hlen, set_first_free done k 0 (reseed 0 [global_seed, done.length])]
    have := ih (done.length + 1) (done ++ [reseed 0 [global_seed, done.length]]) (by simp)
    simpa using this

/-- The seeds of a freshly allocated population after `seed_rats`. -/
theorem seed_rats_new_rats (reseed : Nat → List Nat → Nat) (g : graph_t) (nrat : Nat)
    (global_seed : Nat) (pos : List Int) :
    (seed_rats reseed { new_rats g nrat global_seed with rat_position := pos }).rat_seed
      = (List.range nrat).map (fun i => reseed 0 [global_seed, i]) := by
  have := seed_loop_eq reseed global_seed nrat 0 [] rfl
  simpa [seed_rats, new_rats, List.range_eq_range'] using this

/-- What `read_rats` returns, field by field. -/
theorem read_rats_fields (reseed : Nat → List Nat → Nat) (g : graph_t) (f : rat_file)
    (global_seed : Nat) (s : state_t) (h : read_rats reseed g f global_seed = some s) :
    s.nrat = f.positions.length ∧
    s.batch_size = (new_rats g f.positions.length global_seed).batch_size ∧
    s.rat_seed = (List.range f.positions.length).map (fun i => reseed 0 [global_seed, i]) ∧
    read_positions g.nnode f.positions 0 (List.replicate f.positions.length 0)
      = some s.rat_position := by
  unfold read_rats at h
  cases hh : f.header with
  | none => simp [hh] at h
  | some nnode =>
    simp only [hh] at h
    split_ifs at h with hn
    simp only [ne_eq, not_not] at hn
    subst hn
    cases hp : read_positions g.nnode f.positions 0
        (new_rats g f.positions.length global_seed).rat_position with
    | none => simp [hp] at h
    | some pos =>
      simp only [hp, Option.some.injEq] at h
      subst h
      refine ⟨rfl, rfl, seed_rats_new_rats reseed g _ global_seed pos, ?_⟩
      simpa [new_rats, seed_rats] using hp

/-! ## Binary64 arithmetic of new_rats -/

theorem bit_size_loop_le : ∀ (k n m : Nat), n < 2 ^ m → bit_size_loop k n ≤ m := by
  intro k
  induction k with
  | zero => intro n m _; simp [bit_size_loop]
  | succ k ih =>
    intro n m h
    simp only [bit_size_loop]
    split_ifs with h0
    · exact Nat.zero_le m
    · cases m with
      | zero => simp at h; exact absurd h h0
      | succ m =>
        have : n / 2 < 2 ^ m := by
          rw [Nat.div_lt_iff_lt_mul (by norm_num)]
          rw [pow_succ] at h
          exact h
        have := ih (n / 2) m this
        omega

theorem bit_size_le (n m : Nat) (h : n < 2 ^ m) : bit_size n ≤ m :=
  bit_size_loop_le 256 n m h

/-- The two bounds on rounding used below: a multiple of `2^S` that is at most `p`
stays at most the rounded value, and rounding adds at most `2^S / 2`. -/
theorem round53_bounds (sticky : Bool) (p S : Nat) (hS : bit_size p - 53 ≤ S) :
    (∀ a, 2 ^ S ∣ a → a ≤ p → a ≤ round53 sticky p) ∧
    2 * round53 sticky p ≤ 2 * p + 2 ^ S := by
  have hmod := Nat.div_add_mod p (2 ^ (bit_size p - 53))
  have hpow : 2 ^ (bit_size p - 53) ≤ 2 ^ S := Nat.pow_le_pow_right (by norm_num) hS
  have hdvd : 2 ^ (bit_size p - 53) ∣ 2 ^ S := pow_dvd_pow 2 hS
  have hpos : 0 < 2 ^ (bit_size p - 53) := Nat.two_pow_pos _
  have hq : p / 2 ^ (bit_size p - 53) * 2 ^ (bit_size p - 53) ≤ p := Nat.div_mul_le_self _ _
  have hdown : ∀ a, 2 ^ S ∣ a → a ≤ p →
      a ≤ p / 2 ^ (bit_size p - 53) * 2 ^ (bit_size p - 53) := by
    intro a ha hap
    obtain ⟨j, rfl⟩ := Dvd.dvd.trans hdvd ha
    rw [Nat.mul_comm]
    apply Nat.mul_le_mul_right
    rw [Nat.le_div_iff_mul_le hpos, Nat.mul_comm]
    exact hap
  unfold round53
  simp only
  split_ifs with h0 hup
  · exact ⟨fun a _ hap => hap, by omega⟩
  · refine ⟨fun a ha hap => le_trans (hdown a ha hap) (Nat.mul_le_mul_right _ (by omega)), ?_⟩
    have hrem : 2 ^ (bit_size p - 53) ≤ 2 * (p % 2 ^ (bit_size p - 53)) := by
      rcases hup with h | h
      · omega
      · omega
    have e : 2 * ((p / 2 ^ (bit_size p - 53) + 1) * 2 ^ (bit_size p - 53))
        = 2 * (2 ^ (bit_size p - 53) * (p / 2 ^ (bit_size p - 53)))
          + 2 * 2 ^ (bit_size p - 53) := by ring
    omega
  · exact ⟨hdown, by omega⟩

/-- The binary64 product `BATCH_FRACTION * nrat`, truncated, is `nrat div 50`. -/
theorem rpct_binary64_eq (nrat : Nat) (h : nrat < 2 ^ 31) : rpct_binary64 nrat = nrat / 50 := by
  have h31 : (2 : Nat) ^ 31 = 2147483648 := by norm_num
  have h58 : (2 : Nat) ^ 58 = 288230376151711744 := by norm_num
  have h84 : (2 : Nat) ^ 84 = 19342813113834066795298816 := by norm_num
  rw [h31] at h
  unfold rpct_binary64 batch_fraction_mant
  have hp : nrat * 5764607523034235 < 2 ^ 84 := by
    rw [h84]; omega
  have hS : bit_size (nrat * 5764607523034235) - 53 ≤ 31 := by
    have := bit_size_le _ _ hp
    omega
  obtain ⟨hlow, hup⟩ := round53_bounds false _ 31 hS
  have h1 := hlow (nrat / 50 * 2 ^ 58)
    ⟨nrat / 50 * 2 ^ 27, by rw [show (58 : Nat) = 31 + 27 from rfl, pow_add]; ring⟩
    (by rw [h58]; omega)
  apply Nat.le_antisymm
  · have : round53 false (nrat * 5764607523034235) / 2 ^ 58 < nrat / 50 + 1 := by
      rw [Nat.div_lt_iff_lt_mul (Nat.two_pow_pos _)]
      rw [h31] at hup
      rw [h58]
      omega
    omega
  · rw [Nat.le_div_iff_mul_le (Nat.two_pow_pos _)]
    exact h1

theorem sqrt_bits_spec (n : Nat) : ∀ (k r : Nat), r * r ≤ n →
    n < (r + 2 ^ k) * (r + 2 ^ k) →
    sqrt_bits n k r * sqrt_bits n k r ≤ n ∧
      n < (sqrt_bits n k r + 1) * (sqrt_bits n k r + 1) := by
  intro k
  induction k with
  | zero => intro r h1 h2; simpa [sqrt_bits] using ⟨h1, h2⟩
  | succ k ih =>
    intro r h1 h2
    simp only [sqrt_bits]
    split_ifs with hc
    · apply ih _ hc
      have : r + 2 ^ k + 2 ^ k = r + 2 ^ (k + 1) := by rw [pow_succ]; ring
      rw [this]; exact h2
    · exact ih r h1 (by omega)

/-- The binary64 square root of an `int`, truncated, is the integer square root. -/
theorem sroot_binary64_eq (n : Nat) (h : n < 2 ^ 31) : sroot_binary64 n = Nat.sqrt n := by
  have h31 : (2 : Nat) ^ 31 = 2147483648 := by norm_num
  rw [h31] at h
  obtain ⟨hr1, hr2⟩ := sqrt_bits_spec (n * 2 ^ 120) 80 0 (Nat.zero_le _) (by
    norm_num; omega)
  have ha1 : Nat.sqrt n * Nat.sqrt n ≤ n := Nat.sqrt_le n
  have ha2 : n < (Nat.sqrt n + 1) * (Nat.sqrt n + 1) := Nat.lt_succ_sqrt n
  unfold sroot_binary64
  simp only
  generalize sqrt_bits (n * 2 ^ 120) 80 0 = r at hr1 hr2 ⊢
  generalize Nat.sqrt n = a at ha1 ha2 ⊢
  have hr76 : r < 2 ^ 76 := by
    by_contra hc
    have hc' : 2 ^ 76 ≤ r := by omega
    have := Nat.mul_le_mul hc' hc'
    norm_num at this hr1
    omega
  have hS : bit_size r - 53 ≤ 23 := by
    have := bit_size_le _ _ hr76
    omega
  obtain ⟨hlow, hup⟩ := round53_bounds (decide (r * r ≠ n * 2 ^ 120)) r 23 hS
  have hle : a * 2 ^ 60 ≤ r := by
    by_contra hc
    have hc' : r + 1 ≤ a * 2 ^ 60 := by omega
    have h2 := Nat.mul_le_mul hc' hc'
    have e : a * 2 ^ 60 * (a * 2 ^ 60) = (a * a) * 2 ^ 120 := by ring
    rw [e] at h2
    have h3 : a * a * 2 ^ 120 ≤ n * 2 ^ 120 := Nat.mul_le_mul_right _ ha1
    omega
  have h1 := hlow (a * 2 ^ 60)
    ⟨a * 2 ^ 37, by rw [show (60 : Nat) = 23 + 37 from rfl, pow_add]; ring⟩ hle
  have hlt : r + 2 ^ 22 < (a + 1) * 2 ^ 60 := by
    by_contra hc
    have hc' : (a + 1) * 2 ^ 60 ≤ r + 2 ^ 22 := by omega
    have h2 := Nat.mul_le_mul hc' hc'
    have e1 : (a + 1) * 2 ^ 60 * ((a + 1) * 2 ^ 60) = ((a + 1) * (a + 1)) * 2 ^ 120 := by ring
    have e2 : (r + 2 ^ 22) * (r + 2 ^ 22) = r * r + 2 ^ 23 * r + 2 ^ 44 := by ring
    rw [e1, e2] at h2
    have h3 : (n + 1) * 2 ^ 120 ≤ (a + 1) * (a + 1) * 2 ^ 120 :=
      Nat.mul_le_mul_right _ ha2
    have e3 : (n + 1) * 2 ^ 120 = n * 2 ^ 120 + 2 ^ 120 := by ring
    rw [e3] at h3
    norm_num at h2 h3 hr1 hr76
    omega
  apply Nat.le_antisymm
  · have : round53 (decide (r * r ≠ n * 2 ^ 120)) r / 2 ^ 60 < a + 1 := by
      rw [Nat.div_lt_iff_lt_mul (Nat.two_pow_pos _)]
      norm_num at hup hlt ⊢
      omega
    omega
  · rw [Nat.le_div_iff_mul_le (Nat.two_pow_pos _)]
    exact h1

/-- The binary64 value of `(int) sqrt(n)` is `int_sqrt n`. -/
theorem int_sqrt_binary64 (n : Nat) (h : n < 2 ^ 31) : sroot_binary64 n = int_sqrt n := by
  rw [sroot_binary64_eq n h, int_sqrt_eq_sqrt]

theorem bit_size_loop_zero (k : Nat) : bit_size_loop k 0 = 0 := by
  cases k <;> simp [bit_size_loop]

theorem bit_size_loop_spec : ∀ (k n : Nat), n < 2 ^ k → n ≠ 0 →
    2 ^ (bit_size_loop k n - 1) ≤ n ∧ n < 2 ^ bit_size_loop k n := by
  intro k
  induction k with
  | zero => intro n h h0; simp at h; exact absurd h h0
  | succ k ih =>
    intro n h h0
    simp only [bit_size_loop, h0, if_false, Nat.add_sub_cancel]
    have hlt : n / 2 < 2 ^ k := by
      rw [Nat.div_lt_iff_lt_mul (by norm_num)]
      rw [pow_succ] at h
      exact h
    by_cases hz : n / 2 = 0
    · rw [hz, bit_size_loop_zero]
      have : n = 1 := by omega
      subst this
      norm_num
    · obtain ⟨h1, h2⟩ := ih (n / 2) hlt hz
      have hpos : 0 < bit_size_loop k (n / 2) := by
        rcases Nat.eq_zero_or_pos (bit_size_loop k (n / 2)) with h | h
        · rw [h] at h2; simp at h2; exact absurd h2 hz
        · exact h
      have e : 2 ^ bit_size_loop k (n / 2) = 2 ^ (bit_size_loop k (n / 2) - 1) * 2 := by
        rw [← pow_succ]; congr 1; omega
      rw [pow_succ]
      omega

/-- `bit_size n` is the number of binary digits of `n`. -/
theorem bit_size_spec (n : Nat) (h : n < 2 ^ 256) (h0 : n ≠ 0) :
    2 ^ (bit_size n - 1) ≤ n ∧ n < 2 ^ bit_size n :=
  bit_size_loop_spec 256 n h h0

/-! ## The claims C11 to C20 -/

/-- C11, as stated, fails: for `nnode = 5` the code takes `ncol = (int) sqrt(5) = 2`, not
the ceiling 3. Node 2 is looked up at column 0, row 1 and gets zone 1; at column
`2 mod 3`, row `2 div 3` the same rectangles would give it zone 0. -/
theorem read_graph_grid_counterexample :
    read_graph five_file 2 = .graph five ∧ int_sqrt 5 = 2 ∧ ceil_sqrt 5 = 3 ∧
    five.zone_id[2]? = some (node_zone (five_file.zones.map zone_of_line) (int_sqrt 5) 1 2) ∧
    five.zone_id[2]? = some 1 ∧
    node_zone (five_file.zones.map zone_of_line) (ceil_sqrt 5) 1 2 = 0 := by
  decide

/-- C11, amended: for every `nnode`, `read_graph` looks up the zone of node `i` at
column `i mod floor(sqrt(nnode))` and row `i div floor(sqrt(nnode))`; the floor is the
ceiling exactly when `nnode` is a perfect square. -/
theorem read_graph_grid_floor (f : graph_file) (nzone nnode : Nat) (g : graph_t)
    (hh : f.header = some nnode) (h : read_graph f nzone = .graph g) :
    (∀ i, i < nnode → g.zone_id[i]? = some (Int.tdiv
      (find_zone (f.zones.map zone_of_line)
        ((i % Nat.sqrt nnode : Nat) : Int) ((i / Nat.sqrt nnode : Nat) : Int))
      ((f.zones.length / nzone : Nat) : Int))) ∧
    (ceil_sqrt nnode = Nat.sqrt nnode ↔ ∃ k, nnode = k * k) := by
  obtain ⟨n1, _, hh1, _, _, _, _, _, _, _, _, hzid⟩ := read_graph_eq_graph f nzone g h
  rw [hh] at hh1
  simp only [Option.some.injEq] at hh1
  subst hh1
  refine ⟨?_, ?_⟩
  · intro i hi
    rw [hzid, List.getElem?_map, List.getElem?_range hi, ← int_sqrt_eq_sqrt]
    rfl
  · unfold ceil_sqrt
    rw [int_sqrt_eq_sqrt]
    constructor
    · intro hc
      split_ifs at hc with hsq
      · exact ⟨Nat.sqrt nnode, hsq.symm⟩
      · omega
    · rintro ⟨k, rfl⟩
      simp [Nat.sqrt_eq]

/-- Instance of the amended C11 on the 2 x 2 grid `ring4_file`, node 3. -/
theorem read_graph_grid_floor_witness :
    ring4_file.header = some 4 ∧ read_graph ring4_file 2 = .graph ring4 ∧
    ring4.zone_id[3]? = some (Int.tdiv
      (find_zone (ring4_file.zones.map zone_of_line)
        ((3 % Nat.sqrt 4 : Nat) : Int) ((3 / Nat.sqrt 4 : Nat) : Int))
      ((ring4_file.zones.length / 2 : Nat) : Int)) :=
  ⟨rfl, by decide,
    (read_graph_grid_floor ring4_file 2 4 ring4 rfl (by decide)).1 3 (by decide)⟩

/-- C12 (the code departs from the claim): with `nzone = 1` and a single rectangle that
covers only the cell (0, 0), `find_zone` returns -1 for node 1, and `read_graph` still
returns a graph: the nodes 1, 2, 3 get the zone id `-1 / 1 = -1`. -/
theorem read_graph_unmatched_cell_not_rejected :
    read_graph gap_file 1 = .graph gap ∧
    find_zone (gap_file.zones.map zone_of_line)
      ((1 % int_sqrt 4 : Nat) : Int) ((1 / int_sqrt 4 : Nat) : Int) = -1 ∧
    gap.zone_id = [0, -1, -1, -1] := by
  decide

/-- C13 (the code departs from the claim): on the sample of 4 nodes, a node line or a
zone line that does not parse does not abort the load, a graph is returned (for the
zone line the rectangle stored is whatever the four locals hold, here `0 0 2 2`); a
header or an edge line that does not parse gives NULL. -/
theorem read_graph_bad_node_or_zone_line_not_rejected :
    read_graph { line4_file with nodes := [true, false, true, true] } 1 = .graph line4 ∧
    read_graph { line4_file with zones := [⟨false, 0, 0, 2, 2⟩] } 1 = .graph line4 ∧
    read_graph { line4_file with header := none } 1 = .null ∧
    read_graph { line4_file with edges := [some (0, 1), none, some (2, 3)] } 1 = .null := by
  decide

/-- C14 (the code departs from the claim): with `nzone = 2` and a file of 4 nodes with
one zone rectangle (`fnzone = 1 >= 1`, not a multiple of 2) the mismatch is reported,
the load goes on, `fzone_per_zone = 1 / 2` is 0 and `zid / fzone_per_zone` divides by
zero: no graph is returned. -/
theorem read_graph_zone_mismatch_divides_by_zero :
    ring4_one_file.zones.length = 1 ∧ ¬ 2 ∣ 1 ∧ (1 / 2 : Nat) = 0 ∧
    read_graph ring4_one_file 2 = .undefined := by
  decide

/-- Where the divisor is not zero: for `nzone >= 1` and a file zone count
`fnzone >= nzone`, a multiple of `nzone` or not, the load of a file with acceptable
edges returns a graph, and the zone id of node `i` is the index `find_zone` returns for
its cell divided (C division) by `floor(fnzone / nzone)`. -/
theorem read_graph_zone_count_ge (nnode : Nat) (nodes : List Bool) (es : List (Int × Int))
    (zones : List zone_line) (nzone : Nat) (hz : 0 < nzone) (hge : nzone ≤ zones.length)
    (hok : ¬ bad_edge nnode es) :
    ∃ g, read_graph ⟨some nnode, nodes, es.map some, zones⟩ nzone = .graph g ∧
      ∀ i, i < nnode → g.zone_id[i]? = some (Int.tdiv
        (find_zone (zones.map zone_of_line)
          ((i % int_sqrt nnode : Nat) : Int) ((i / int_sqrt nnode : Nat) : Int))
        ((zones.length / nzone : Nat) : Int)) := by
  have h1 := read_edges_isSome nnode es (build_init nnode (es.map some).length)
  have h2 := chain_iff_no_bad_edge nnode es
  have h3 : (build_init nnode (es.map some).length).nid = -1 := rfl
  rw [h3, h2] at h1
  obtain ⟨g, hg⟩ := (read_graph_isGraph_iff nnode nodes (es.map some) zones nzone hz
    (Or.inr hge)).mpr (h1.mpr hok)
  refine ⟨g, hg, ?_⟩
  obtain ⟨n1, _, hh1, _, _, _, _, _, _, _, _, hzid⟩ := read_graph_eq_graph _ nzone g hg
  simp only [Option.some.injEq] at hh1
  subst hh1
  intro i hi
  rw [hzid, List.getElem?_map, List.getElem?_range hi]
  rfl

/-- The 2 x 2 grid with three zone rectangles read for two zones: the count 3 is not a
multiple of 2, and the load returns a graph. -/
theorem read_graph_zone_count_ge_ring4_three :
    0 < 2 ∧ 2 ≤ ring4_three_file.zones.length ∧ ¬ 2 ∣ ring4_three_file.zones.length ∧
    ∃ g, read_graph ⟨some 4, [true, true, true, true],
        [(0, 1), (0, 2), (1, 0), (1, 3), (2, 0), (2, 3), (3, 1), (3, 2)].map some,
        ring4_three_file.zones⟩ 2 = .graph g ∧
      ∀ i, i < 4 → g.zone_id[i]? = some (Int.tdiv
        (find_zone (ring4_three_file.zones.map zone_of_line)
          ((i % int_sqrt 4 : Nat) : Int) ((i / int_sqrt 4 : Nat) : Int))
        ((ring4_three_file.zones.length / 2 : Nat) : Int)) :=
  ⟨by decide, by decide, by decide,
    read_graph_zone_count_ge 4 [true, true, true, true]
      [(0, 1), (0, 2), (1, 0), (1, 3), (2, 0), (2, 3), (3, 1), (3, 2)]
      ring4_three_file.zones 2 (by decide) (by decide) (by
        unfold bad_edge
        rintro ⟨i, hd, tl, hi, hbad⟩
        have hil : i < 8 := (List.getElem?_eq_some.mp hi).1
        interval_cases i <;> simp at hi <;> obtain ⟨rfl, rfl⟩ := hi <;>
          rcases hbad with hb | hb | ⟨j, hd1, tl1, hj, hje, hlt⟩ <;> try omega
        all_goals (interval_cases j <;> simp at hje <;> omega))⟩

/-- C15: for a graph `g` and a rat file with header node count `nnode` followed by
parsed position lines `ps`, `read_rats` returns a state if and only if `nnode` is the
node count of `g` and every position `p` satisfies `0 <= p < nnode`; the state it
returns has `nrat` equal to the number of position lines and `rat_position` equal to
the positions supplied, in order. -/
theorem read_rats_some_iff (reseed : Nat → List Nat → Nat) (g : graph_t) (nnode : Nat)
    (ps : List Int) (global_seed : Nat) :
    ((read_rats reseed g ⟨some nnode, ps.map some⟩ global_seed).isSome ↔
      nnode = g.nnode ∧ ∀ p ∈ ps, 0 ≤ p ∧ p < (nnode : Int)) ∧
    ∀ s, read_rats reseed g ⟨some nnode, ps.map some⟩ global_seed = some s →
      s.nrat = ps.length ∧ s.rat_position = ps ∧
      ∀ r, r < ps.length → s.rat_position[r]? = ps[r]? := by
  refine ⟨?_, ?_⟩
  · by_cases hn : nnode = g.nnode
    · subst hn
      by_cases hall : ∀ p ∈ ps, 0 ≤ p ∧ p < ((g.nnode : Nat) : Int)
      · have := read_positions_ok g.nnode ps [] hall
        simp only [List.length_nil, List.nil_append] at this
        simp only [read_rats, new_rats, ne_eq, not_true_eq_false, if_false, List.length_map,
          this, Option.isSome_some, true_and, true_iff]
        exact hall
      · have hex : ∃ p ∈ ps, ¬ (0 ≤ p ∧ p < ((g.nnode : Nat) : Int)) := by
          push_neg at hall ⊢
          exact hall
        have := read_positions_bad g.nnode ps 0 (List.replicate (ps.map some).length 0) hex
        simp only [read_rats, new_rats, ne_eq, not_true_eq_false, if_false, this,
          Option.isSome_none, Bool.false_eq_true, true_and, false_iff]
        exact hall
    · simp [read_rats, hn]
  · intro s hs
    obtain ⟨hnn, _, _, _, _, hpos⟩ := read_rats_eq_some reseed g _ global_seed s hs
    obtain ⟨hnrat, _, _, _⟩ := read_rats_fields reseed g _ global_seed s hs
    simp only [Option.some.injEq] at hnn
    simp only [List.length_map] at hpos hnrat
    have hall : ∀ p ∈ ps, 0 ≤ p ∧ p < ((g.nnode : Nat) : Int) := by
      by_contra hc
      have hex : ∃ p ∈ ps, ¬ (0 ≤ p ∧ p < ((g.nnode : Nat) : Int)) := by
        push_neg at hc ⊢
        exact hc
      rw [read_positions_bad g.nnode ps 0 _ hex] at hpos
      exact absurd hpos (by simp)
    have := read_positions_ok g.nnode ps [] hall
    simp only [List.length_nil, List.nil_append] at this
    rw [this] at hpos
    simp only [Option.some.injEq] at hpos
    exact ⟨hnrat, hpos.symm, fun r _ => by rw [← hpos]⟩

/-- Instance of C15 on `ring4` with three rats on node 0. -/
theorem read_rats_some_iff_witness :
    read_rats (fun _ seeds => seeds.sum) ring4 ⟨some 4, [0, 0, 0].map some⟩ 1 = some rats3 ∧
    rats3.nrat = 3 ∧ rats3.rat_position = [0, 0, 0] :=
  ⟨by decide,
    ((read_rats_some_iff (fun _ seeds => seeds.sum) ring4 4 [0, 0, 0] 1).2 rats3
      (by decide)).1,
    ((read_rats_some_iff (fun _ seeds => seeds.sum) ring4 4 [0, 0, 0] 1).2 rats3
      (by decide)).2.1⟩

/-- C17: in the state `read_rats` returns, the seed of rat `r` is `reseed` applied to a
zeroed cell and the two words `[global_seed, r]`; two populations loaded with the same
global seed, whatever their graphs, rat counts and positions, give rat `r` the same
seed. -/
theorem read_rats_seed_pure (reseed : Nat → List Nat → Nat) (g1 g2 : graph_t)
    (f1 f2 : rat_file) (global_seed : Nat) (s1 s2 : state_t) (r : Nat)
    (h1 : read_rats reseed g1 f1 global_seed = some s1)
    (h2 : read_rats reseed g2 f2 global_seed = some s2)
    (hr1 : r < s1.nrat) (hr2 : r < s2.nrat) :
    s1.rat_seed[r]? = some (reseed 0 [global_seed, r]) ∧ s1.rat_seed[r]? = s2.rat_seed[r]? := by
  obtain ⟨hn1, _, hs1, _⟩ := read_rats_fields reseed g1 f1 global_seed s1 h1
  obtain ⟨hn2, _, hs2, _⟩ := read_rats_fields reseed g2 f2 global_seed s2 h2
  rw [hn1] at hr1
  rw [hn2] at hr2
  have e1 : s1.rat_seed[r]? = some (reseed 0 [global_seed, r]) := by
    rw [hs1, List.getElem?_map, List.getElem?_range hr1]; rfl
  have e2 : s2.rat_seed[r]? = some (reseed 0 [global_seed, r]) := by
    rw [hs2, List.getElem?_map, List.getElem?_range hr2]; rfl
  exact ⟨e1, e1.trans e2.symm⟩

/-- Instance of C17: three rats on `ring4` and one rat on `k33`, global seed 1, with the
sum of the seed words as `reseed`: rat 0 has the seed `1 + 0` in both. -/
theorem read_rats_seed_pure_witness :
    read_rats (fun _ seeds => seeds.sum) ring4 rats3_file 1 = some rats3 ∧
    (read_rats (fun _ seeds => seeds.sum) k33 ⟨some 6, [some 5]⟩ 1).isSome = true ∧
    rats3.rat_seed[0]? = some ((fun (_ : Nat) (seeds : List Nat) => seeds.sum) 0 [1, 0]) :=
  ⟨by decide, by decide,
    (read_rats_seed_pure (fun _ seeds => seeds.sum) ring4 k33 rats3_file ⟨some 6, [some 5]⟩ 1
      rats3 ((read_rats (fun _ seeds => seeds.sum) k33 ⟨some 6, [some 5]⟩ 1).get (by decide)) 0
      (by decide) (by simp) (by decide) (by decide)).1⟩

/-- C18 (the code departs from the claim): `k33`, loaded with zone ids 0 and 1, has 6
nodes, so every list has `4 * (int) sqrt(6) = 8` entries; the three nodes of zone 0
have three neighbors each in zone 1, so `setup_zone k33 0` appends 9 entries to the
export list (and to the import list) of zone 1: the ninth append is at index 8, past
the list. -/
theorem setup_zone_list_overflow :
    read_graph k33_file 2 = .graph k33 ∧ k33.zone_id = [0, 1, 0, 1, 0, 1] ∧
    4 * int_sqrt k33.nnode = 8 ∧
    (raw_export k33 0 1).length = 9 ∧ (raw_import k33 0 1).length = 9 ∧
    setup_zone k33 0 = none := by
  decide

/-- C19 (the code departs from the claim): `fixup_list` on the one-entry list `[-1]`,
whose distinct values are `[-1]`, returns the empty list with count 0, and on
`[-1, 3, -1]`, whose distinct values in ascending order are `[-1, 3]`, it returns `[3]`
with count 1: the value -1 is lost, and a sorted input without duplicates is changed. -/
theorem fixup_list_drops_minus_one :
    ([-1] : List Int).Pairwise (fun a b : Int => a < b) ∧
    fixup_list [-1] 1 = ([], 0) ∧
    (-1 : Int) ∈ ([-1, 3, -1] : List Int) ∧ fixup_list [-1, 3, -1] 3 = ([3], 1) := by
  decide

/-- What `fixup_list` leaves, for every list of integers: a strictly ascending list
whose values are the values of the input, except that -1 is left out when no value of
the input is below -1; the count is the length of that list; a strictly ascending input
that does not begin with -1 is returned unchanged, and the empty input yields the
empty list with count 0. -/
theorem fixup_list_exact (l : List Int) :
    (fixup_list l l.length).1.Pairwise (fun a b : Int => a < b) ∧
    (∀ v, v ∈ (fixup_list l l.length).1 ↔ v ∈ l ∧ (v ≠ -1 ∨ ∃ x ∈ l, x < -1)) ∧
    (fixup_list l l.length).2 = (fixup_list l l.length).1.length ∧
    (l.Pairwise (fun a b : Int => a < b) → l.head? ≠ some (-1) →
      fixup_list l l.length = (l, l.length)) ∧
    fixup_list [] 0 = ([], 0) := by
  refine ⟨(fixup_list_ascending l).1, mem_fixup_list_any l, (fixup_list_ascending l).2, ?_,
    by decide⟩
  intro hs hhead
  have heq : (fixup_list l l.length).1 = l := by
    apply ascending_ext _ _ (fixup_list_ascending l).1 hs
    intro v
    rw [mem_fixup_list_any]
    constructor
    · exact fun h => h.1
    · intro hv
      refine ⟨hv, ?_⟩
      by_cases hne : v = -1
      · right
        subst hne
        cases l with
        | nil => simp at hv
        | cons x xs =>
          rw [List.pairwise_cons] at hs
          simp only [List.head?_cons, ne_eq, Option.some.injEq] at hhead
          rcases List.mem_cons.mp hv with hx | hx
          · exact absurd hx.symm hhead
          · exact ⟨x, List.mem_cons_self _ _, hs.1 _ hx⟩
      · exact Or.inl hne
  have hcnt := (fixup_list_ascending l).2
  rw [heq] at hcnt
  exact Prod.ext heq hcnt

/-- On node ids, the values `setup_zone` passes, `fixup_list` leaves the strictly
ascending list of the distinct values of the input, with its length as the count. -/
theorem fixup_list_of_nonneg (l : List Int) (h : ∀ v ∈ l, 0 ≤ v) :
    (fixup_list l l.length).1.Pairwise (fun a b : Int => a < b) ∧
    (∀ v, v ∈ (fixup_list l l.length).1 ↔ v ∈ l) ∧
    (fixup_list l l.length).2 = (fixup_list l l.length).1.length := by
  refine ⟨(fixup_list_ascending l).1, ?_, (fixup_list_ascending l).2⟩
  intro v
  rw [mem_fixup_list_any]
  constructor
  · exact fun hv => hv.1
  · intro hv
    have h0 := h v hv
    exact ⟨hv, Or.inl (by omega)⟩

/-- A strictly ascending list of node ids is returned unchanged. -/
theorem fixup_list_exact_ascending_ids :
    ([0, 2, 5] : List Int).Pairwise (fun a b : Int => a < b) ∧
    ([0, 2, 5] : List Int).head? ≠ some (-1) ∧
    fixup_list [0, 2, 5] ([0, 2, 5] : List Int).length = ([0, 2, 5], 3) :=
  ⟨by decide, by decide,
    (fixup_list_exact [0, 2, 5]).2.2.2.1 (by decide) (by decide)⟩

/-- C20 (the code departs from the claim): the rectangle `(0, 2, 1, 2147483647)`
contains the point `(0, 2)`, and `(2, 0, 2147483647, 1)` contains `(2, 0)`, in the
sense `zx <= x <= zx + w - 1` and `zy <= y <= zy + h - 1`; in `int` arithmetic
`2 + 2147483647` wraps around, `zymax` (`zxmax`) is `-2147483648`, and `find_zone`
returns -1 on a list that holds the rectangle. -/
theorem find_zone_overflow_miss :
    in_zone ⟨0, 2, 1, 2147483647⟩ 0 2 ∧
    wrap32 (wrap32 (2 + 2147483647) - 1) = -2147483648 ∧
    find_zone [⟨0, 0, 1, 2⟩, ⟨0, 2, 1, 2147483647⟩] 0 2 = -1 ∧
    in_zone ⟨2, 0, 2147483647, 1⟩ 2 0 ∧
    find_zone [⟨2, 0, 2147483647, 1⟩] 2 0 = -1 := by
  decide

/-- What `find_zone` returns, exactly: -1 if and only if the test accepts the point for
no rectangle of the list; otherwise the smallest index whose rectangle passes the test
`zx <= x <= zxmax` and `zy <= y <= zymax`, with `zxmax` and `zymax` as `int`
arithmetic computes `zx + w - 1` and `zy + h - 1`. -/
theorem find_zone_first_test (zones : List zone_t) (x y : Int) :
    (find_zone zones x y = -1 ↔ ∀ z ∈ zones, ¬ zone_test z x y) ∧
    (find_zone zones x y ≠ -1 →
      ∃ (i : Nat) (z : zone_t), find_zone zones x y = (i : Int) ∧ zones[i]? = some z ∧
        zone_test z x y ∧
        ∀ (j : Nat) (z1 : zone_t), j < i → zones[j]? = some z1 → ¬ zone_test z1 x y) := by
  refine ⟨find_zone_loop_eq_neg_one x y zones 0 (le_refl 0), ?_⟩
  intro hne
  obtain ⟨i, z, he, hz, hin, hmin⟩ := find_zone_loop_first x y zones 0 hne (le_refl 0)
  exact ⟨i, z, by unfold find_zone; rw [he]; ring, hz, hin, hmin⟩

/-- Away from overflow: on a list of rectangles whose last column and row are `int`
values, `find_zone` returns -1 if and only if no rectangle contains the point, and
otherwise the smallest index whose rectangle contains it. -/
theorem find_zone_first_match_of_fits (zones : List zone_t) (x y : Int)
    (hfit : ∀ z ∈ zones, fits_int z) :
    (find_zone zones x y = -1 ↔ ∀ z ∈ zones, ¬ in_zone z x y) ∧
    (find_zone zones x y ≠ -1 →
      ∃ (i : Nat) (z : zone_t), find_zone zones x y = (i : Int) ∧ zones[i]? = some z ∧
        in_zone z x y ∧
        ∀ (j : Nat) (z1 : zone_t), j < i → zones[j]? = some z1 → ¬ in_zone z1 x y) := by
  obtain ⟨h1, h2⟩ := find_zone_first_test zones x y
  constructor
  · rw [h1]
    constructor
    · intro h z hz hin
      exact h z hz ((zone_test_iff_in_zone z x y (hfit z hz)).mpr hin)
    · intro h z hz hin
      exact h z hz ((zone_test_iff_in_zone z x y (hfit z hz)).mp hin)
  · intro hne
    obtain ⟨i, z, he, hz, hin, hmin⟩ := h2 hne
    refine ⟨i, z, he, hz,
      (zone_test_iff_in_zone z x y (hfit z (List.getElem?_mem hz))).mp hin, ?_⟩
    intro j z1 hj hz1 hin1
    exact hmin j z1 hj hz1
      ((zone_test_iff_in_zone z1 x y (hfit z1 (List.getElem?_mem hz1))).mpr hin1)

/-- Among the rectangles row 0 and row 1 of the 2 x 2 grid, the cell (1, 1) is found in
rectangle 1, and the cell (5, 5) in none. -/
theorem find_zone_first_match_of_fits_rows :
    (∀ z ∈ ([⟨0, 0, 2, 1⟩, ⟨0, 1, 2, 1⟩] : List zone_t), fits_int z) ∧
    find_zone [⟨0, 0, 2, 1⟩, ⟨0, 1, 2, 1⟩] 1 1 = 1 ∧
    find_zone [⟨0, 0, 2, 1⟩, ⟨0, 1, 2, 1⟩] 5 5 = -1 :=
  ⟨by decide, by decide,
    (find_zone_first_match_of_fits [⟨0, 0, 2, 1⟩, ⟨0, 1, 2, 1⟩] 5 5 (by decide)).1.mpr
      (by decide)⟩

/-- C16: for every `int` `nrat >= 0` the batch size computed by `new_rats` is
`max(nrat div 50, isqrt(nrat))`; the two operands are the values that
`(int) (BATCH_FRACTION * nrat)` and `(int) sqrt(nrat)` take in binary64 arithmetic. -/
theorem new_rats_batch_size (g : graph_t) (nrat global_seed : Nat) (h : nrat < 2 ^ 31) :
    (new_rats g nrat global_seed).batch_size = max (nrat / 50) (Nat.sqrt nrat) ∧
    rpct_binary64 nrat = nrat / 50 ∧ sroot_binary64 nrat = Nat.sqrt nrat := by
  refine ⟨?_, rpct_binary64_eq nrat h, sroot_binary64_eq nrat h⟩
  simp only [new_rats, int_sqrt_eq_sqrt]
  split_ifs with hc
  · exact (max_eq_left (le_of_lt hc)).symm
  · exact (max_eq_right (by omega)).symm

/-- Instance of C16: 2600 rats give the batch size `max(52, 50)`. -/
theorem new_rats_batch_size_witness :
    2600 < 2 ^ 31 ∧ (new_rats ring4 2600 1).batch_size = max (2600 / 50) (Nat.sqrt 2600) ∧
    rpct_binary64 2600 = 2600 / 50 :=
  ⟨by norm_num, (new_rats_batch_size ring4 2600 1 (by norm_num)).1,
    (new_rats_batch_size ring4 2600 1 (by norm_num)).2.1⟩

/-! ## The claims C21 to C23 -/

theorem int_sqrt_pos (n : Nat) (h : 1 ≤ n) : 1 ≤ int_sqrt n := by
  obtain ⟨_, h2⟩ := int_sqrt_spec n
  by_contra hc
  have h0 : int_sqrt n = 0 := by omega
  rw [h0] at h2
  omega

theorem int_sqrt_le_self (n : Nat) : int_sqrt n ≤ n :=
  (isqrt_from_spec n n).1

/-- With `nzone = 0` the load ends in the division at line 97, whatever the file. -/
theorem read_graph_zero_zones (f : graph_file) (nnode : Nat) (h : f.header = some nnode) :
    read_graph f 0 = .undefined := by
  simp [read_graph, h]

/-- C21: for every `nrat >= 1` the batch size computed by `new_rats` satisfies
`1 <= batch_size <= nrat`, and the batch size is 0 only when `nrat` is 0; for an `int`
`nrat` the batch size is the larger of the binary64 values of
`(int) (BATCH_FRACTION * nrat)` and `(int) sqrt(nrat)`. -/
theorem new_rats_batch_size_bounds (g : graph_t) (nrat global_seed : Nat) :
    (1 ≤ nrat → 1 ≤ (new_rats g nrat global_seed).batch_size ∧
      (new_rats g nrat global_seed).batch_size ≤ nrat) ∧
    ((new_rats g nrat global_seed).batch_size = 0 ↔ nrat = 0) ∧
    (nrat < 2 ^ 31 → (new_rats g nrat global_seed).batch_size =
      if rpct_binary64 nrat > sroot_binary64 nrat then rpct_binary64 nrat
      else sroot_binary64 nrat) := by
  have hle := int_sqrt_le_self nrat
  have hdiv : nrat / 50 ≤ nrat := Nat.div_le_self nrat 50
  refine ⟨?_, ?_, ?_⟩
  · intro h
    have hpos := int_sqrt_pos nrat h
    simp only [new_rats]
    split_ifs with hc <;> omega
  · simp only [new_rats]
    constructor
    · intro h0
      by_contra hne
      have hpos := int_sqrt_pos nrat (by omega)
      split_ifs at h0 with hc <;> omega
    · rintro rfl
      decide
  · intro h
    rw [rpct_binary64_eq nrat h, int_sqrt_binary64 nrat h]
    rfl

/-- Instance of C21: 2600 rats give a batch size between 1 and 2600. -/
theorem new_rats_batch_size_bounds_witness :
    1 ≤ 2600 ∧ 1 ≤ (new_rats ring4 2600 1).batch_size ∧
    (new_rats ring4 2600 1).batch_size ≤ 2600 ∧ (new_rats ring4 0 1).batch_size = 0 :=
  ⟨by norm_num, ((new_rats_batch_size_bounds ring4 2600 1).1 (by norm_num)).1,
    ((new_rats_batch_size_bounds ring4 2600 1).1 (by norm_num)).2,
    (new_rats_batch_size_bounds ring4 0 1).2.1.mpr rfl⟩

/-- C22 (the code departs from the claim): `path3`, loaded with `nzone = 2` and zone ids
0, 0, 1, has 3 nodes, so `local_node_list` has `3 / 2 = 1` entry; zone 0 holds the two
nodes 0 and 1, and `setup_zone path3 0` writes node 1 at index 1, past the list. With
two entries the same scan completes. -/
theorem setup_zone_local_overflow :
    read_graph path3_file 2 = .graph path3 ∧ path3.zone_id = [0, 0, 1] ∧
    path3.nnode / path3.nzone = 1 ∧
    ((List.range path3.nnode).filter
      (fun (n : Nat) => decide (path3.zone_id[n]? = some 0))).length = 2 ∧
    (scan_nodes path3 0 1 (4 * int_sqrt 3) [0] scan_init2).map
      (fun s => s.local_node_list) = some [0] ∧
    scan_nodes path3 0 1 (4 * int_sqrt 3) [0, 1] scan_init2 = none ∧
    (scan_nodes path3 0 2 (4 * int_sqrt 3) (List.range 3) scan_init2).map
      (fun s => s.local_node_list) = some [0, 1] ∧
    setup_zone path3 0 = none := by
  decide

/-- C23 (the code departs from the claim): called with `nzone = 0` on the well-formed
sample of 4 nodes, `read_graph` does not return the graph: line 97 computes
`fnzone % nzone`, a modulo by zero, before the nodes and edges are read and before the
`nzone == 0` branch. With `nzone = 1` the same file loads. -/
theorem read_graph_zero_zones_divides :
    read_graph line4_file 0 = .undefined ∧
    read_graph { line4_file with zones := [] } 0 = .undefined ∧
    read_graph line4_file 1 = .graph line4 := by
  decide

end Crun
